import Mathlib

/-!
Verification of the traversalgroup core: a shallow embedding of the
bijection/permutation algebra (`functions.py`), the LRU cache and its
indexed heap (`cache.py`, `priority_queue.py`), the group closure
(`functions.py`) and the integer codecs (`serialize.py`), together with
theorems settling the specification's claims about them.

Modelling conventions:
* Python dicts are association lists `List (Nat × Nat)` (or total functions
  `Nat → Nat` where the code only ever reads them pointwise);
* Python lists are `List Nat`;
* `time.time()` is a strictly increasing logical clock, so timestamps are
  distinct and ordered by call time;
* the heap array of `priority_queue.py` keeps the unused sentinel at
  index 0, so Python index `i` is position `i - 1` of the modelled list;
* loops whose termination depends on run-time data are given explicit fuel
  or a well-founded measure, matching the source statement for statement.
-/

namespace TraversalGroup

open scoped List

/-! ### functions.py: `Bijection` -/

/-- A Python dict with integer keys and values, as an association list
(first binding of a key wins on lookup, as in a dict built without
duplicate keys). -/
abbrev PyDict := List (Nat × Nat)

/-- `Bijection.__getitem__` / `__call__`: a mapped element returns its stored
image, an unmapped element returns itself (the fixed-point convention). -/
def Bijection.getitem (f : PyDict) (x : Nat) : Nat :=
  match f.lookup x with
  | some y => y
  | none => x

/-- The copy branch of `Bijection.__init__`:
`{key: val for key, val in f.iteritems() if key != val}` —
only the non-identity pairs are stored. -/
def Bijection.init (f : PyDict) : PyDict :=
  f.filter (fun kv => kv.1 ≠ kv.2)

/-- `Bijection.__iter__`: iterating a bijection yields the stored dict's keys. -/
def Bijection.keys (f : PyDict) : List Nat :=
  f.map Prod.fst

/-- `Bijection.of`: `{elt: self(bij(elt)) for elt in bij}`. -/
def Bijection.of (self bij : PyDict) : PyDict :=
  (Bijection.keys bij).map
    (fun elt => (elt, Bijection.getitem self (Bijection.getitem bij elt)))

/-- Lookup in the stripped form of a dict whose bindings are computed by a
function of the key: present non-identity keys return their binding, all
other lookups miss. -/
theorem lookup_init_map (ks : List Nat) (g : Nat → Nat) (x : Nat) :
    List.lookup x (Bijection.init (ks.map (fun k => (k, g k)))) =
      if x ∈ ks ∧ g x ≠ x then some (g x) else none := by
  induction ks with
  | nil => simp [Bijection.init]
  | cons k ks ih =>
    simp only [Bijection.init, List.map_cons, List.filter_cons] at ih ⊢
    by_cases hg : g k = k
    · have hcond : (decide ((k, g k).1 ≠ (k, g k).2)) = false := by simp [hg]
      rw [hcond, if_neg (by simp), ih]
      by_cases hx : x = k
      · subst hx
        simp [hg]
      · simp [hx]
    · have hcond : (decide ((k, g k).1 ≠ (k, g k).2)) = true := by simp [Ne.symm hg]
      rw [hcond, if_pos rfl]
      by_cases hx : x = k
      · subst hx
        simp [List.lookup, hg]
      · have hbeq : (x == k) = false := beq_false_of_ne hx
        simp only [List.lookup, hbeq, ih]
        by_cases hmem : x ∈ ks <;> simp [hmem, hx]

/-- Lookup through `Bijection.init` of a dict whose bindings are computed by a
function of the key: the fixed-point convention makes the stripping of
identity pairs invisible, so present keys return `g x` and absent ones `x`. -/
theorem Bijection.getitem_init_map (ks : List Nat) (g : Nat → Nat) (x : Nat) :
    Bijection.getitem (Bijection.init (ks.map (fun k => (k, g k)))) x =
      if x ∈ ks then g x else x := by
  rw [Bijection.getitem, lookup_init_map]
  by_cases hmem : x ∈ ks
  · by_cases hg : g x = x <;> simp [hmem, hg]
  · simp [hmem]

/-- C1, corrected: for every element `x` of `other`'s **stored domain**
(the non-identity keys of `q`), the permutation constructed from `p.of(q)`
maps `x` to `p(q(x))` under the fixed-point lookup convention. -/
theorem of_pointwise_on_other_domain (p q : PyDict) (x : Nat)
    (hx : x ∈ Bijection.keys q) :
    Bijection.getitem (Bijection.init (Bijection.of p q)) x =
      Bijection.getitem p (Bijection.getitem q x) := by
  have h := Bijection.getitem_init_map (Bijection.keys q)
    (fun k => Bijection.getitem p (Bijection.getitem q k)) x
  simpa [Bijection.of, hx] using h

/-- C1 as stated is false: with `p = (1 2)` and `q = (2 3)`, the element
`x = 1` lies in the union of the letter sets, but the permutation built from
`p.of(q)` maps `1` to `1`, while `p(q(1)) = p(1) = 2`. -/
theorem of_pointwise_union_counterexample :
    (1 ∈ Bijection.keys [(1,2),(2,1)] ∨ 1 ∈ Bijection.keys [(2,3),(3,2)]) ∧
    Bijection.getitem
        (Bijection.init (Bijection.of [(1,2),(2,1)] [(2,3),(3,2)])) 1 ≠
      Bijection.getitem [(1,2),(2,1)]
        (Bijection.getitem [(2,3),(3,2)] 1) := by
  decide

/-- Witness for `of_pointwise_on_other_domain` at `p = (1 2)`, `q = (2 3)`,
`x = 2`. -/
theorem of_pointwise_on_other_domain_witness :
    2 ∈ Bijection.keys [(2,3),(3,2)] ∧
    Bijection.getitem
        (Bijection.init (Bijection.of [(1,2),(2,1)] [(2,3),(3,2)])) 2 =
      Bijection.getitem [(1,2),(2,1)]
        (Bijection.getitem [(2,3),(3,2)] 2) :=
  ⟨by decide, of_pointwise_on_other_domain [(1,2),(2,1)] [(2,3),(3,2)] 2 (by decide)⟩

/-! ### serialize.py: `perm_to_int` / `int_to_perm`

A `Permutation` built from a plain sequence is its image list
`[p(1), ..., p(n)]`; iterating it yields exactly that list, which is what
`perm_to_int` receives and `int_to_perm` rebuilds. -/

/-- The dict comprehension `{p: pos for pos, p in enumerate(perm)}` of
`perm_to_int`, as a total function (later bindings overwrite earlier ones,
and the code never reads a key that was not bound). -/
def positionDict (perm : List Nat) : Nat → Nat :=
  perm.enum.foldl (fun m pp => fun v => if v = pp.2 then pp.1 else m v) (fun _ => 0)

/-- The main loop of `perm_to_int`. The counter argument is the running
`k` of `for j, k in enumerate(xrange(len(perm) - 1, 0, -1))`, so at
`c + 1` the value being placed is `k + 1 = c + 2`; `perm.remove(k + 1)`
removes the first occurrence, and `for p in perm[pos:]: position[p] -= 1`
decrements the recorded position of every element of the slice. -/
def permToIntGo : Nat → List Nat → (Nat → Nat) → Nat
  | 0, _, _ => 0
  | c+1, perm, position =>
    let pos := position (c+2)
    let perm' := perm.erase (c+2)
    let position' :=
      (perm'.drop pos).foldl (fun m p => fun v => if v = p then m p - 1 else m v) position
    Nat.factorial (c+1) * ((c+1) - pos) + permToIntGo c perm' position'

/-- `perm_to_int`: encode a permutation (given as its image list) as an
integer. -/
def perm_to_int (perm : List Nat) : Nat :=
  permToIntGo (perm.length - 1) perm (positionDict perm)

/-- The `while factorial(n) <= i: n += 1` loop at the head of `int_to_perm`. -/
def findN (i n : Nat) : Nat :=
  if Nat.factorial n ≤ i then findN i (n + 1) else n
termination_by i + 1 - n
decreasing_by
  have h1 : n ≤ Nat.factorial n := Nat.self_le_factorial n
  omega

/-- The inner placement loop of `int_to_perm`: scan the array left to right,
skipping filled slots, and put `v` into the `pos`-th (0-based) empty slot.
Running off the end of the array (Python would fail with an IndexError)
gives `none`. -/
def placeAt : List Nat → Nat → Nat → Option (List Nat)
  | [], _, _ => none
  | x :: rest, pos, v =>
    if x ≠ 0 then (placeAt rest pos v).map (fun r => x :: r)
    else if pos ≠ 0 then (placeAt rest (pos - 1) v).map (fun r => x :: r)
    else some (v :: rest)

/-- The main loop of `int_to_perm`, `for k in xrange(n - 1, -1, -1)`: the
counter argument is the number of iterations left, so at `c + 1` the current
`k` is `c`, the digit is `i / k!`, the slot is `pos = k - i / kf`, and the
value placed is `k + 1`. -/
def intToPermGo : Nat → Nat → List Nat → Option (List Nat)
  | 0, _, perm => some perm
  | c+1, i, perm =>
    let kf := Nat.factorial c
    let pos := c - i / kf
    (placeAt perm pos (c+1)).bind (intToPermGo c (i % kf))

/-- `int_to_perm`: decode an integer as a permutation (image list). -/
def int_to_perm (i : Nat) (n : Nat) : Option (List Nat) :=
  let n' := findN i n
  intToPermGo n' i (List.replicate n' 0)

/-- If `i < n!`, the `while factorial(n) <= i` loop does not run. -/
theorem findN_eq_of_lt {i n : Nat} (h : i < Nat.factorial n) : findN i n = n := by
  rw [findN]
  exact if_neg (Nat.not_le.mpr h)

/-- C4 as stated is false: the permutation `[2,1,3]` encodes to `1`, not to
its 0-indexed lexicographic rank `2`, and decoding `2` at size 3 yields
`[1,3,2]`, not `[2,1,3]`. -/
theorem perm_codec_rank_counterexample :
    perm_to_int [2,1,3] ≠ 2 ∧ int_to_perm 2 3 ≠ some [2,1,3] := by
  constructor
  · decide
  · show intToPermGo (findN 2 3) 2 (List.replicate (findN 2 3) 0) ≠ some [2,1,3]
    rw [findN_eq_of_lt (by norm_num [Nat.factorial])]
    decide

/-- C4, corrected: `perm_to_int([2,1,3])` returns `1` (the code ranks by its
own largest-value-first digit scheme, not by lexicographic order), and
`int_to_perm(1, 3)` returns `[2,1,3]`, so the concrete round trip holds at
rank 1. -/
theorem perm_codec_rank_213 :
    perm_to_int [2,1,3] = 1 ∧ int_to_perm 1 3 = some [2,1,3] := by
  constructor
  · decide
  · show intToPermGo (findN 1 3) 1 (List.replicate (findN 1 3) 0) = some [2,1,3]
    rw [findN_eq_of_lt (by norm_num [Nat.factorial])]
    decide

/-! #### The round trip of the primary permutation codec (C3)

`permToIntGo` is first related to a positions-free form `encL` (the position
dict always records the index of each remaining value in the shrinking
list), and the decode loop is related to decoding into a fresh array via
`fillZeros`, which splices values into the empty slots of a partially
filled array. -/

/-- The loop of `perm_to_int` with the position dict replaced by list
indexing: at counter `c + 1` the value `c + 2` contributes
`(c+1)! * ((c+1) - index)` and is removed. -/
def encL : Nat → List Nat → Nat
  | 0, _ => 0
  | c+1, l => Nat.factorial (c+1) * ((c+1) - l.indexOf (c+2)) + encL c (l.erase (c+2))

theorem encL_lt_factorial : ∀ (c : Nat) (l : List Nat),
    encL c l < Nat.factorial (c + 1)
  | 0, _ => Nat.one_pos
  | c+1, l => by
    have ih := encL_lt_factorial c (l.erase (c+2))
    have hd : (c+1) - l.indexOf (c+2) ≤ c + 1 := Nat.sub_le _ _
    calc Nat.factorial (c+1) * ((c+1) - l.indexOf (c+2)) + encL c (l.erase (c+2))
        < Nat.factorial (c+1) * ((c+1) - l.indexOf (c+2)) + Nat.factorial (c+1) :=
          Nat.add_lt_add_left ih _
      _ = Nat.factorial (c+1) * ((c+1) - l.indexOf (c+2) + 1) := by ring
      _ ≤ Nat.factorial (c+1) * (c + 2) := by
          exact Nat.mul_le_mul_left _ (by omega)
      _ = Nat.factorial (c + 2) := by
          rw [Nat.factorial_succ (c+1)]
          ring

/-- Folding dict updates keyed on the second components leaves keys that do
not occur unchanged. -/
theorem foldl_update_not_mem (ps : List (Nat × Nat)) (m : Nat → Nat) (v : Nat)
    (h : v ∉ ps.map Prod.snd) :
    (ps.foldl (fun m pp => fun w => if w = pp.2 then pp.1 else m w) m) v = m v := by
  induction ps generalizing m with
  | nil => rfl
  | cons pp ps ih =>
    simp only [List.map_cons, List.mem_cons, not_or] at h
    rw [List.foldl_cons, ih _ h.2]
    simp [h.1]

/-- The dict `{p: pos for pos, p in enumerate(perm)}`, built from
`enumFrom k`, records `k` plus the index of each element of a
duplicate-free list. -/
theorem foldl_enumFrom_indexOf (l : List Nat) (k : Nat) (m : Nat → Nat) (v : Nat)
    (hn : l.Nodup) (hv : v ∈ l) :
    ((List.enumFrom k l).foldl (fun m pp => fun w => if w = pp.2 then pp.1 else m w) m) v =
      k + l.indexOf v := by
  induction l generalizing k m with
  | nil => cases hv
  | cons a t ih =>
    simp only [List.enumFrom, List.foldl_cons]
    rcases List.mem_cons.mp hv with hva | hvt
    · subst hva
      have hat : v ∉ t := (List.nodup_cons.mp hn).1
      have : v ∉ (List.enumFrom (k+1) t).map Prod.snd := by
        rwa [List.enumFrom_map_snd]
      rw [foldl_update_not_mem _ _ _ this]
      simp [List.indexOf_cons_self]
    · have hat : v ≠ a := by
        rintro rfl
        exact (List.nodup_cons.mp hn).1 hvt
      rw [ih (k+1) _ (List.nodup_cons.mp hn).2 hvt]
      rw [List.indexOf_cons_ne _ (Ne.symm hat)]
      omega

/-- `positionDict` records the index of every element of a duplicate-free
list. -/
theorem positionDict_eq_indexOf {l : List Nat} (hn : l.Nodup) {v : Nat} (hv : v ∈ l) :
    positionDict l v = l.indexOf v := by
  have h := foldl_enumFrom_indexOf l 0 (fun _ => 0) v hn hv
  simpa [positionDict, List.enum] using h

/-- The decrement loop `for p in perm[pos:]: position[p] -= 1` applied over a
duplicate-free list decrements exactly the occurring keys. -/
theorem foldl_decrement (s : List Nat) (m : Nat → Nat) (v : Nat) (hn : s.Nodup) :
    (s.foldl (fun m p => fun w => if w = p then m p - 1 else m w) m) v =
      if v ∈ s then m v - 1 else m v := by
  induction s generalizing m with
  | nil => simp
  | cons a t ih =>
    rw [List.foldl_cons, ih _ (List.nodup_cons.mp hn).2]
    rcases eq_or_ne v a with rfl | hva
    · have : v ∉ t := (List.nodup_cons.mp hn).1
      simp [this]
    · by_cases hvt : v ∈ t <;> simp [hvt, hva]

/-- The index of `x` never occurs in the prefix of the list before `x`. -/
theorem not_mem_take_indexOf (l : List Nat) (x : Nat) :
    x ∉ l.take (l.indexOf x) := by
  induction l with
  | nil => simp
  | cons a t ih =>
    rcases eq_or_ne x a with rfl | hxa
    · simp [List.indexOf_cons_self]
    · rw [List.indexOf_cons_ne _ (Ne.symm hxa)]
      simp only [List.take_succ_cons, List.mem_cons, not_or]
      exact ⟨hxa, ih⟩

/-- Splitting a list at the first occurrence of a member. -/
theorem take_indexOf_cons_drop {l : List Nat} {x : Nat} (hx : x ∈ l) :
    l = l.take (l.indexOf x) ++ x :: l.drop (l.indexOf x + 1) := by
  have hlt : l.indexOf x < l.length := List.indexOf_lt_length.mpr hx
  have hget : l[l.indexOf x] = x := List.getElem_indexOf hlt
  conv_lhs => rw [← List.take_append_drop (l.indexOf x) l]
  rw [List.drop_eq_getElem_cons hlt, hget]

/-- Erasing a member removes exactly the first occurrence. -/
theorem erase_eq_take_append_drop {l : List Nat} {x : Nat} (hx : x ∈ l) :
    l.erase x = l.take (l.indexOf x) ++ l.drop (l.indexOf x + 1) := by
  conv_lhs => rw [take_indexOf_cons_drop hx]
  rw [List.erase_append_right _ (not_mem_take_indexOf l x), List.erase_cons_head]

/-- Index bookkeeping after `perm.remove(k + 1)`: in a duplicate-free list,
elements after the removed position move down one slot, elements before it
keep their index, and the moved elements are exactly those in the slice
`perm[pos:]` of the shrunken list. -/
theorem indexOf_erase (l : List Nat) (x v : Nat) (hn : l.Nodup) (hx : x ∈ l)
    (hv : v ∈ l.erase x) :
    (l.erase x).indexOf v =
      if v ∈ (l.erase x).drop (l.indexOf x) then l.indexOf v - 1 else l.indexOf v := by
  set k := l.indexOf x with hk
  set u := l.take k with hu
  set w := l.drop (k + 1) with hw
  have hdec : l = u ++ x :: w := take_indexOf_cons_drop hx
  have herase : l.erase x = u ++ w := erase_eq_take_append_drop hx
  have hulen : u.length = k := by
    rw [hu, List.length_take]
    exact Nat.min_eq_left (Nat.le_of_lt (List.indexOf_lt_length.mpr hx))
  have hdropw : (l.erase x).drop k = w := by
    rw [herase, ← hulen, List.drop_left]
  have hnodup : (u ++ x :: w).Nodup := hdec ▸ hn
  have hdisj : ∀ y ∈ u, y ∉ x :: w := fun y hy => (List.nodup_append.mp hnodup).2.2 hy
  rw [herase] at hv
  rcases List.mem_append.mp hv with hvu | hvw
  · have hvnw : v ∉ w := fun hvw => hdisj v hvu (List.mem_cons_of_mem _ hvw)
    rw [hdropw, if_neg hvnw, herase, List.indexOf_append_of_mem hvu,
      hdec, List.indexOf_append_of_mem hvu]
  · have hvnu : v ∉ u := fun hvu => hdisj v hvu (List.mem_cons_of_mem _ hvw)
    have hvx : v ≠ x := by
      rintro rfl
      exact ((List.nodup_append.mp hnodup).2.1).not_mem hvw |>.elim
    rw [hdropw, if_pos hvw, herase, List.indexOf_append_of_not_mem hvnu,
      hdec, List.indexOf_append_of_not_mem hvnu, List.indexOf_cons_ne _ (Ne.symm hvx)]
    omega

/-- Erasing the top value from a permutation of `{1, ..., c+2}` leaves a
permutation of `{1, ..., c+1}`. -/
theorem perm_erase_top {c : Nat} {l : List Nat} (hp : l ~ List.range' 1 (c + 2)) :
    l.erase (c + 2) ~ List.range' 1 (c + 1) := by
  have h1 : l.erase (c+2) ~ (List.range' 1 (c+2)).erase (c+2) := hp.erase _
  have h2 : (List.range' 1 (c+2)).erase (c+2) = List.range' 1 (c+1) := by
    have hconcat : List.range' 1 (c+2) = List.range' 1 (c+1) ++ [c + 2] := by
      have h := @List.range'_concat 1 1 (c+1)
      rw [Nat.one_mul, show 1 + (c+1) = c + 2 from by omega] at h
      exact h
    have hnot : (c+2) ∉ List.range' 1 (c+1) := by
      simp only [List.mem_range'_1]
      omega
    rw [hconcat, List.erase_append_right _ hnot, List.erase_cons_head, List.append_nil]
  exact h1.trans (h2 ▸ List.Perm.refl _)

/-- The loop of `perm_to_int` computes `encL` whenever the position dict
records current indices — which the decrement loop maintains. -/
theorem permToIntGo_eq_encL : ∀ (c : Nat) (l : List Nat) (posm : Nat → Nat),
    l ~ List.range' 1 (c + 1) → (∀ v ∈ l, posm v = l.indexOf v) →
    permToIntGo c l posm = encL c l
  | 0, _, _, _, _ => rfl
  | c+1, l, posm, hp, hpos => by
    have hnodup : l.Nodup := hp.nodup_iff.mpr (List.nodup_range' 1 (c+2))
    have hmem : (c+2) ∈ l := hp.mem_iff.mpr (by simp [List.mem_range'_1])
    have hposx : posm (c+2) = l.indexOf (c+2) := hpos _ hmem
    have hperm' : l.erase (c+2) ~ List.range' 1 (c+1) := perm_erase_top hp
    have hnodup' : (l.erase (c+2)).Nodup := hnodup.erase _
    rw [permToIntGo, encL]
    simp only [hposx]
    congr 1
    apply permToIntGo_eq_encL c _ _ hperm'
    intro v hv
    have hdropnodup : ((l.erase (c+2)).drop (l.indexOf (c+2))).Nodup :=
      hnodup'.sublist (List.drop_sublist _ _)
    rw [foldl_decrement _ _ _ hdropnodup]
    have hvl : v ∈ l := List.mem_of_mem_erase hv
    rw [hpos v hvl]
    exact (indexOf_erase l (c+2) v hnodup hmem hv).symm

/-- Splice the elements of `b`, in order, into the zero slots of `a`. -/
def fillZeros : List Nat → List Nat → List Nat
  | [], _ => []
  | 0 :: as, b :: bs => b :: fillZeros as bs
  | 0 :: as, [] => 0 :: fillZeros as []
  | (x+1) :: as, bs => (x+1) :: fillZeros as bs

theorem placeAt_length : ∀ (b : List Nat) (pos v : Nat) (b' : List Nat),
    placeAt b pos v = some b' → b'.length = b.length := by
  intro b
  induction b with
  | nil => intro pos v b' h; simp [placeAt] at h
  | cons x rest ih =>
    intro pos v b' h
    rw [placeAt] at h
    by_cases hx : x ≠ 0
    · rw [if_pos hx] at h
      cases hr : placeAt rest pos v with
      | none => rw [hr] at h; simp at h
      | some r =>
        rw [hr] at h
        simp only [Option.map_some', Option.some.injEq] at h
        subst h
        simp [ih pos v r hr]
    · rw [if_neg hx] at h
      by_cases hpos : pos ≠ 0
      · rw [if_pos hpos] at h
        cases hr : placeAt rest (pos - 1) v with
        | none => rw [hr] at h; simp at h
        | some r =>
          rw [hr] at h
          simp only [Option.map_some', Option.some.injEq] at h
          subst h
          simp [ih (pos - 1) v r hr]
      · rw [if_neg hpos] at h
        simp only [Option.some.injEq] at h
        subst h
        simp

/-- Splicing a full complement of values back into an all-zero array is the
identity. -/
theorem fillZeros_replicate (b : List Nat) :
    fillZeros (List.replicate b.length 0) b = b := by
  induction b with
  | nil => rfl
  | cons x bs ih => simpa [List.replicate_succ, fillZeros] using ih

/-- The placement scan commutes with splicing: placing into the `pos`-th
zero of a partially filled array is placing at the `pos`-th slot of the
compressed list of its zero slots. -/
theorem placeAt_fillZeros : ∀ (a b : List Nat) (pos v : Nat),
    a.count 0 = b.length →
    placeAt (fillZeros a b) pos v = (placeAt b pos v).map (fillZeros a) := by
  intro a
  induction a with
  | nil =>
    intro b pos v h
    simp only [List.count_nil] at h
    cases b with
    | nil => simp [fillZeros, placeAt]
    | cons b0 bs => simp at h
  | cons a0 as ih =>
    intro b pos v h
    cases a0 with
    | zero =>
      rw [List.count_cons_self] at h
      cases b with
      | nil => simp at h
      | cons b0 bs =>
        simp only [List.length_cons, Nat.add_right_cancel_iff] at h
        show placeAt (b0 :: fillZeros as bs) pos v
          = (placeAt (b0 :: bs) pos v).map (fillZeros (0 :: as))
        rw [placeAt, placeAt]
        by_cases hb0 : b0 ≠ 0
        · rw [if_pos hb0, if_pos hb0, ih bs pos v h]
          cases placeAt bs pos v <;> rfl
        · rw [if_neg hb0, if_neg hb0]
          by_cases hpos : pos ≠ 0
          · rw [if_pos hpos, if_pos hpos, ih bs (pos - 1) v h]
            cases placeAt bs (pos - 1) v <;> rfl
          · rw [if_neg hpos, if_neg hpos]
            rfl
    | succ x =>
      have hc : ((x+1) :: as).count 0 = as.count 0 := by
        rw [List.count_cons_of_ne (by omega)]
      rw [hc] at h
      show placeAt ((x+1) :: fillZeros as b) pos v
        = (placeAt b pos v).map (fillZeros ((x+1) :: as))
      rw [placeAt, if_pos (by omega), ih b pos v h]
      cases placeAt b pos v <;> rfl

/-- The whole decode loop commutes with splicing. -/
theorem intToPermGo_fillZeros : ∀ (c i : Nat) (a b : List Nat),
    a.count 0 = b.length →
    intToPermGo c i (fillZeros a b) = (intToPermGo c i b).map (fillZeros a) := by
  intro c
  induction c with
  | zero => intro i a b _; rfl
  | succ c ih =>
    intro i a b h
    rw [intToPermGo, intToPermGo, placeAt_fillZeros a b _ _ h]
    cases hr : placeAt b (c - i / Nat.factorial c) (c+1) with
    | none => rfl
    | some b' =>
      simp only [Option.map_some', Option.bind_some, Option.some_bind]
      exact ih (i % Nat.factorial c) a b' (h.trans (placeAt_length b _ _ b' hr).symm)

/-- Placing into an all-zero array of `m` slots puts the value at position
`pos` itself. -/
theorem placeAt_replicate_zero : ∀ (m pos v : Nat), pos < m →
    placeAt (List.replicate m 0) pos v =
      some (List.replicate pos 0 ++ v :: List.replicate (m - pos - 1) 0) := by
  intro m
  induction m with
  | zero => intro pos v h; omega
  | succ m ih =>
    intro pos v h
    rw [List.replicate_succ, placeAt, if_neg (by simp)]
    cases pos with
    | zero => simp
    | succ p =>
      rw [if_pos (by omega)]
      simp only [Nat.add_sub_cancel]
      rw [ih p v (by omega)]
      simp only [Option.map_some', Option.some.injEq]
      rw [List.replicate_succ]
      simp [Nat.succ_sub_succ]

/-- Splicing into an array that is all zeros except one value inserts that
value between the two spliced halves. -/
theorem fillZeros_replicate_mid : ∀ (u w : List Nat) (v : Nat), v ≠ 0 →
    fillZeros (List.replicate u.length 0 ++ v :: List.replicate w.length 0) (u ++ w)
      = u ++ v :: w := by
  intro u
  induction u with
  | nil =>
    intro w v hv
    cases v with
    | zero => exact absurd rfl hv
    | succ x =>
      show fillZeros ((x+1) :: List.replicate w.length 0) w = (x+1) :: w
      rw [fillZeros, fillZeros_replicate]
  | cons u0 us ih =>
    intro w v hv
    show fillZeros (0 :: (List.replicate us.length 0 ++ v :: List.replicate w.length 0))
        (u0 :: (us ++ w)) = u0 :: (us ++ v :: w)
    rw [fillZeros, ih w v hv]

/-- Splicing zeros back into the zero slots is the identity. -/
theorem fillZeros_replicate_count : ∀ (a : List Nat),
    fillZeros a (List.replicate (a.count 0) 0) = a := by
  intro a
  induction a with
  | nil => rfl
  | cons a0 as ih =>
    cases a0 with
    | zero =>
      rw [List.count_cons_self, List.replicate_succ]
      show (0 : Nat) :: fillZeros as (List.replicate (as.count 0) 0) = 0 :: as
      rw [ih]
    | succ x =>
      rw [List.count_cons_of_ne (by omega)]
      show (x+1) :: fillZeros as (List.replicate (as.count 0) 0) = (x+1) :: as
      rw [ih]

/-- Unfolding of the decode loop at a counter of the form `c + 2`. -/
theorem intToPermGo_two_plus (c i : Nat) (perm : List Nat) :
    intToPermGo (c+2) i perm
      = (placeAt perm ((c+1) - i / Nat.factorial (c+1)) (c+2)).bind
          (intToPermGo (c+1) (i % Nat.factorial (c+1))) := rfl

/-- The decode loop inverts `encL` on every permutation of `{1, ..., c+1}`. -/
theorem intToPermGo_encL : ∀ (c : Nat) (p : List Nat), p ~ List.range' 1 (c + 1) →
    intToPermGo (c + 1) (encL c p) (List.replicate (c + 1) 0) = some p := by
  intro c
  induction c with
  | zero =>
    intro p hp
    have hp1 : p = [1] := List.perm_singleton.mp hp
    subst hp1
    decide
  | succ c ih =>
    intro p hp
    rw [show c + 1 + 1 = c + 2 from rfl]
    have hlen : p.length = c + 2 := by
      rw [hp.length_eq, List.length_range']
    have hmem : (c+2) ∈ p := hp.mem_iff.mpr (by simp [List.mem_range'_1])
    have hidx : p.indexOf (c+2) < c + 2 := by
      have h := List.indexOf_lt_length.mpr hmem
      omega
    have hr : encL c (p.erase (c+2)) < Nat.factorial (c+1) := encL_lt_factorial c _
    have hkfpos : 0 < Nat.factorial (c+1) := Nat.factorial_pos _
    rw [encL, intToPermGo_two_plus]
    have hdiv : (Nat.factorial (c+1) * ((c+1) - p.indexOf (c+2)) + encL c (p.erase (c+2)))
        / Nat.factorial (c+1) = (c+1) - p.indexOf (c+2) := by
      rw [Nat.mul_add_div hkfpos, Nat.div_eq_of_lt hr, Nat.add_zero]
    have hmod : (Nat.factorial (c+1) * ((c+1) - p.indexOf (c+2)) + encL c (p.erase (c+2)))
        % Nat.factorial (c+1) = encL c (p.erase (c+2)) := by
      rw [Nat.mul_add_mod, Nat.mod_eq_of_lt hr]
    rw [hdiv, hmod]
    have hpos : (c+1) - ((c+1) - p.indexOf (c+2)) = p.indexOf (c+2) := by omega
    rw [hpos]
    rw [placeAt_replicate_zero (c+2) _ (c+2) hidx]
    simp only [Option.some_bind]
    have hcount : (List.replicate (p.indexOf (c+2)) 0 ++
        (c+2) :: List.replicate (c + 2 - p.indexOf (c+2) - 1) 0).count 0
        = c + 1 := by
      rw [List.count_append, List.count_replicate_self,
        List.count_cons_of_ne (by omega), List.count_replicate_self]
      omega
    have hself : fillZeros (List.replicate (p.indexOf (c+2)) 0 ++
          (c+2) :: List.replicate (c + 2 - p.indexOf (c+2) - 1) 0)
        (List.replicate (c+1) 0)
        = List.replicate (p.indexOf (c+2)) 0 ++
          (c+2) :: List.replicate (c + 2 - p.indexOf (c+2) - 1) 0 := by
      have h := fillZeros_replicate_count (List.replicate (p.indexOf (c+2)) 0 ++
        (c+2) :: List.replicate (c + 2 - p.indexOf (c+2) - 1) 0)
      rwa [hcount] at h
    rw [← hself]
    rw [intToPermGo_fillZeros _ _ _ (List.replicate (c+1) 0)
      (by rw [hcount, List.length_replicate])]
    rw [ih (p.erase (c+2)) (perm_erase_top hp)]
    have hulen : (p.take (p.indexOf (c+2))).length = p.indexOf (c+2) := by
      rw [List.length_take]
      exact Nat.min_eq_left (Nat.le_of_lt (List.indexOf_lt_length.mpr hmem))
    have hwlen : (p.drop (p.indexOf (c+2) + 1)).length = c + 2 - p.indexOf (c+2) - 1 := by
      rw [List.length_drop, hlen]
      omega
    rw [erase_eq_take_append_drop hmem]
    rw [show List.replicate (p.indexOf (c+2)) 0
        = List.replicate (p.take (p.indexOf (c+2))).length 0
      from by rw [hulen]]
    rw [show List.replicate (c + 2 - p.indexOf (c+2) - 1) 0
        = List.replicate (p.drop (p.indexOf (c+2) + 1)).length 0
      from by rw [hwlen]]
    rw [Option.map_some', fillZeros_replicate_mid _ _ _ (by omega)]
    rw [← take_indexOf_cons_drop hmem]

/-- C3: for every permutation `p` of `{1, ..., n}` (given as its image
list), `int_to_perm (perm_to_int p) n` recovers `p`. -/
theorem perm_codec_roundtrip (n : Nat) (p : List Nat)
    (hp : p ~ List.range' 1 n) :
    int_to_perm (perm_to_int p) n = some p := by
  cases n with
  | zero =>
    have hnil : p = [] := List.perm_nil.mp hp
    subst hnil
    show intToPermGo (findN (perm_to_int []) 0) (perm_to_int [])
      (List.replicate (findN (perm_to_int []) 0) 0) = some []
    rw [show perm_to_int [] = 0 from rfl, findN_eq_of_lt (by norm_num [Nat.factorial])]
    rfl
  | succ m =>
    have hlen : p.length = m + 1 := by
      rw [hp.length_eq, List.length_range']
    have hnodup : p.Nodup := hp.nodup_iff.mpr (List.nodup_range' 1 (m+1))
    have henc : perm_to_int p = encL m p := by
      rw [perm_to_int, hlen, Nat.add_sub_cancel]
      exact permToIntGo_eq_encL m p _ hp (fun v hv => positionDict_eq_indexOf hnodup hv)
    have hbound : perm_to_int p < Nat.factorial (m + 1) := henc ▸ encL_lt_factorial m p
    show intToPermGo (findN (perm_to_int p) (m+1)) (perm_to_int p)
      (List.replicate (findN (perm_to_int p) (m+1)) 0) = some p
    rw [findN_eq_of_lt hbound, henc]
    exact intToPermGo_encL m p hp

/-- Witness for `perm_codec_roundtrip` at `p = [2,1,3]`, `n = 3`. -/
theorem perm_codec_roundtrip_witness :
    [2,1,3] ~ List.range' 1 3 ∧ int_to_perm (perm_to_int [2,1,3]) 3 = some [2,1,3] :=
  ⟨by decide, perm_codec_roundtrip 3 [2,1,3] (by decide)⟩

/-! ### priority_queue.py and cache.py: `Heap`, `PriorityQueue`, `LRUCache`

The heap array keeps the sentinel `'Not used'` at Python index 0, so
Python index `i` is position `i - 1` of the modelled list and
`len(self.items)` is `length + 1`. The recursive sifts are given explicit
fuel; the supplied fuel (`i` for an up-sift, `length + 1` for a down-sift)
always dominates the recursion depth, so the fueled functions agree with
the source. `time.time()` is modelled by the strictly increasing `clock`
field. -/

/-- The dict `{'key': key, 'timestamp': time.time()}` handed to the
priority queue by `LRUCache.insert`. -/
structure PQData where
  key : Nat
  timestamp : Nat
deriving DecidableEq

/-- `self.items[i]` of the heap, for a Python index `i ≥ 1`. -/
def heapGet (l : List PQData) (i : Nat) : PQData :=
  l.getD (i - 1) ⟨0, 0⟩

/-- `self.items[i] = x` of the heap, for a Python index `i ≥ 1`. -/
def heapSet (l : List PQData) (i : Nat) (x : PQData) : List PQData :=
  l.set (i - 1) x

/-- The three-line swap `tmp = items[i]; items[i] = items[j]; items[j] = tmp`
shared by `heapify_up` and `heapify_down`. -/
def heapSwap (l : List PQData) (i j : Nat) : List PQData :=
  heapSet (heapSet l i (heapGet l j)) j (heapGet l i)

/-- `Heap.heapify_up`, with fuel (the recursion halves `i`, so fuel `i`
always suffices). Returns the rebalanced array and the final index. -/
def heapifyUpFuel : Nat → List PQData → Nat → List PQData × Nat
  | 0, l, i => (l, i)
  | fuel+1, l, i =>
    if 1 < i then
      if (heapGet l i).timestamp < (heapGet l (i / 2)).timestamp then
        heapifyUpFuel fuel (heapSwap l i (i / 2)) (i / 2)
      else (l, i)
    else (l, i)

/-- `Heap.heapify_up`. -/
def heapify_up (l : List PQData) (i : Nat) : List PQData × Nat :=
  heapifyUpFuel i l i

/-- `Heap.heapify_down`, with fuel (the recursion increases `i`, which never
exceeds `len(items) - 1`, so fuel `length + 1` always suffices). The
selection of the least-valued child `j` and the single comparison against it
are expanded into the explicit branches. -/
def heapifyDownFuel : Nat → List PQData → Nat → List PQData × Nat
  | 0, l, i => (l, i)
  | fuel+1, l, i =>
    if l.length + 1 ≤ 2 * i then (l, i)
    else if 2 * i + 1 < l.length + 1 then
      if (heapGet l (2*i+1)).timestamp < (heapGet l (2*i)).timestamp then
        if (heapGet l (2*i+1)).timestamp < (heapGet l i).timestamp then
          heapifyDownFuel fuel (heapSwap l i (2*i+1)) (2*i+1)
        else (l, i)
      else
        if (heapGet l (2*i)).timestamp < (heapGet l i).timestamp then
          heapifyDownFuel fuel (heapSwap l i (2*i)) (2*i)
        else (l, i)
    else
      if (heapGet l (2*i)).timestamp < (heapGet l i).timestamp then
        heapifyDownFuel fuel (heapSwap l i (2*i)) (2*i)
      else (l, i)

/-- `Heap.heapify_down`. -/
def heapify_down (l : List PQData) (i : Nat) : List PQData × Nat :=
  heapifyDownFuel (l.length + 1) l i

/-- `PriorityQueue.put`: append at `end = len(self.heap.items)` and sift up;
returns the new array and the slot reported to the caller. -/
def PriorityQueue.put (l : List PQData) (item : PQData) : List PQData × Nat :=
  heapify_up (l ++ [item]) (l.length + 1)

/-- `PriorityQueue.delete`: delete the element at Python index `i`,
swapping in the popped last element (`self.heap.items[i] = items.pop()`,
written out as `heapSet l.dropLast i (heapGet l l.length)`) and sifting it
whichever way restores the invariant. Returns the new array and the deleted
element. -/
def PriorityQueue.delete (l : List PQData) (i : Nat) : List PQData × PQData :=
  if i = l.length then (l.dropLast, heapGet l i)
  else if i = 1 then
    ((heapify_down (heapSet l.dropLast i (heapGet l l.length)) i).1, heapGet l i)
  else if (heapGet (heapSet l.dropLast i (heapGet l l.length)) i).timestamp
      < (heapGet (heapSet l.dropLast i (heapGet l l.length)) (i / 2)).timestamp then
    ((heapify_up (heapSet l.dropLast i (heapGet l l.length)) i).1, heapGet l i)
  else
    ((heapify_down (heapSet l.dropLast i (heapGet l l.length)) i).1, heapGet l i)

/-- `PriorityQueue.get`: read the top element, then `delete(1)`. -/
def PriorityQueue.get (l : List PQData) : List PQData × PQData :=
  ((PriorityQueue.delete l 1).1, heapGet l 1)

/-- The per-key record `{'index': ..., 'value': ...}` stored by the cache. -/
structure EntryData where
  index : Nat
  value : Nat
deriving DecidableEq

/-- Assignment `d[k] = v` on the items dict. -/
def dictSet (d : List (Nat × EntryData)) (k : Nat) (v : EntryData) :
    List (Nat × EntryData) :=
  d.filter (fun kv => kv.1 ≠ k) ++ [(k, v)]

/-- Deletion `del d[k]` on the items dict. -/
def dictDel (d : List (Nat × EntryData)) (k : Nat) : List (Nat × EntryData) :=
  d.filter (fun kv => kv.1 ≠ k)

/-- Read `d[k]` on the items dict (only ever applied to present keys). -/
def dictGet (d : List (Nat × EntryData)) (k : Nat) : EntryData :=
  (d.lookup k).getD ⟨0, 0⟩

/-- The state of an `LRUCache`; `clock` models `time.time()`. -/
structure LRUCache where
  items : List (Nat × EntryData)
  oldest : List PQData
  maxsize : Nat
  numitems : Nat
  clock : Nat
deriving DecidableEq

/-- `LRUCache.insert`: evict the heap minimum when at capacity, then store
the value and record the slot returned by `put`. -/
def LRUCache.insert (st : LRUCache) (key value : Nat) : LRUCache :=
  let st1 :=
    if st.maxsize ≤ st.numitems then
      { st with
          oldest := (PriorityQueue.get st.oldest).1,
          items := dictDel st.items (PriorityQueue.get st.oldest).2.key,
          numitems := st.numitems - 1 }
    else st
  let put := PriorityQueue.put st1.oldest ⟨key, st1.clock⟩
  { st1 with
      oldest := put.1,
      items := dictSet st1.items key ⟨put.2, value⟩,
      numitems := st1.numitems + 1,
      clock := st1.clock + 1 }

/-- `LRUCache.update`: refresh the timestamp of the heap record at the
stored slot and sift it down. -/
def LRUCache.update (st : LRUCache) (key : Nat) : LRUCache :=
  let index := (dictGet st.items key).index
  let heap1 := heapSet st.oldest index ⟨(heapGet st.oldest index).key, st.clock⟩
  { st with oldest := (heapify_down heap1 index).1, clock := st.clock + 1 }

/-- `LRUCache.remove`: delete the heap slot recorded for the key and drop
the dict entry. -/
def LRUCache.remove (st : LRUCache) (key : Nat) : LRUCache :=
  let index := (dictGet st.items key).index
  { st with
      oldest := (PriorityQueue.delete st.oldest index).1,
      items := dictDel st.items key,
      numitems := st.numitems - 1 }

/-- The actual (1-based) position in the heap of the record carrying key
`k`. -/
def heapPosOf (l : List PQData) (k : Nat) : Nat :=
  (l.map PQData.key).indexOf k + 1

/-- The claimed invariant: every cached entry's stored slot equals the
current position of its record in the heap. -/
def slotInvariant (st : LRUCache) : Bool :=
  st.items.all (fun kv => heapPosOf st.oldest kv.1 == kv.2.index)

/-- C2 fails on the code: after `insert(1, _)`, `insert(2, _)`, `update(1)`
on an empty cache of capacity 3, the down-sift triggered by `update(1)`
swaps the two heap records but never updates the stored slots, so the entry
for key 2 records slot 2 while its record sits at position 1 (and key 1
records slot 1 while its record sits at position 2). -/
theorem cache_slot_invariant_violated :
    slotInvariant
        (LRUCache.update (LRUCache.insert (LRUCache.insert
          ⟨[], [], 3, 0, 0⟩ 1 0) 2 0) 1) = false ∧
    (dictGet (LRUCache.update (LRUCache.insert (LRUCache.insert
        ⟨[], [], 3, 0, 0⟩ 1 0) 2 0) 1).items 2).index = 2 ∧
    heapPosOf (LRUCache.update (LRUCache.insert (LRUCache.insert
        ⟨[], [], 3, 0, 0⟩ 1 0) 2 0) 1).oldest 2 = 1 := by
  decide

/-! #### Verification of the heap operations used by `LRUCache.insert` (C5) -/

theorem getD_set_ne (l : List PQData) {m n : Nat} (h : m ≠ n) (x d : PQData) :
    (l.set m x).getD n d = l.getD n d := by
  simp [List.getD_eq_getElem?_getD, List.getElem?_set_ne h]

theorem getD_set_self (l : List PQData) {m : Nat} (h : m < l.length) (x d : PQData) :
    (l.set m x).getD m d = x := by
  simp [List.getD_eq_getElem?_getD, List.getElem?_set_self h]

theorem getD_eq_get (l : List PQData) (n : Nat) (d : PQData) (h : n < l.length) :
    l.getD n d = l.get ⟨n, h⟩ := by
  simp [List.getD_eq_getElem?_getD, List.getElem?_eq_getElem h]

theorem heapSwap_length (l : List PQData) (i j : Nat) :
    (heapSwap l i j).length = l.length := by
  simp [heapSwap, heapSet]

theorem heapGet_heapSwap_left (l : List PQData) {i : Nat} (j : Nat)
    (hi1 : 1 ≤ i) (hi2 : i ≤ l.length) (hj1 : 1 ≤ j) :
    heapGet (heapSwap l i j) i = heapGet l j := by
  rcases eq_or_ne i j with rfl | hij
  · show (heapSet (heapSet l i (heapGet l i)) i (heapGet l i)).getD (i-1) _ = _
    rw [heapSet, heapSet, List.set_set]
    exact getD_set_self _ (by omega) _ _
  · show ((l.set (i-1) (heapGet l j)).set (j-1) (heapGet l i)).getD (i-1) _ = _
    rw [getD_set_ne _ (by omega) _ _, getD_set_self _ (by omega) _ _]

theorem heapGet_heapSwap_right (l : List PQData) (i : Nat) {j : Nat}
    (hj1 : 1 ≤ j) (hj2 : j ≤ l.length) :
    heapGet (heapSwap l i j) j = heapGet l i := by
  show ((l.set (i-1) (heapGet l j)).set (j-1) (heapGet l i)).getD (j-1) _ = _
  exact getD_set_self _ (by rw [List.length_set]; omega) _ _

theorem heapGet_heapSwap_other (l : List PQData) {i j k : Nat}
    (hi1 : 1 ≤ i) (hj1 : 1 ≤ j) (hk1 : 1 ≤ k) (hki : k ≠ i) (hkj : k ≠ j) :
    heapGet (heapSwap l i j) k = heapGet l k := by
  show ((l.set (i-1) (heapGet l j)).set (j-1) (heapGet l i)).getD (k-1) _ = _
  rw [getD_set_ne _ (by omega) _ _, getD_set_ne _ (by omega) _ _]
  rfl

theorem get_cons_set_perm : ∀ (t : List PQData) (j : Nat) (hj : j < t.length) (x : PQData),
    List.Perm (t.get ⟨j, hj⟩ :: t.set j x) (x :: t) := by
  intro t
  induction t with
  | nil => intro j hj x; simp at hj
  | cons y s ih =>
    intro j hj x
    cases j with
    | zero => exact List.Perm.swap x y s
    | succ k =>
      have hk : k < s.length := by simpa using hj
      show List.Perm (s.get ⟨k, hk⟩ :: y :: s.set k x) (x :: y :: s)
      calc s.get ⟨k, hk⟩ :: y :: s.set k x
          ~ y :: s.get ⟨k, hk⟩ :: s.set k x := List.Perm.swap _ _ _
        _ ~ y :: x :: s := (ih k hk x).cons y
        _ ~ x :: y :: s := List.Perm.swap _ _ _

theorem set_set_swap_perm : ∀ (l : List PQData) (a b : Nat)
    (ha : a < l.length) (hb : b < l.length),
    List.Perm ((l.set a (l.get ⟨b, hb⟩)).set b (l.get ⟨a, ha⟩)) l := by
  intro l
  induction l with
  | nil => intro a b ha _; simp at ha
  | cons x t ih =>
    intro a b ha hb
    cases a with
    | zero =>
      cases b with
      | zero => simp
      | succ j =>
        have hj : j < t.length := by simpa using hb
        show List.Perm (t.get ⟨j, hj⟩ :: t.set j x) (x :: t)
        exact get_cons_set_perm t j hj x
    | succ i =>
      have hi : i < t.length := by simpa using ha
      cases b with
      | zero =>
        show List.Perm (t.get ⟨i, hi⟩ :: t.set i x) (x :: t)
        exact get_cons_set_perm t i hi x
      | succ j =>
        have hj : j < t.length := by simpa using hb
        show List.Perm (x :: (t.set i (t.get ⟨j, hj⟩)).set j (t.get ⟨i, hi⟩)) (x :: t)
        exact (ih i j hi hj).cons x

theorem heapSwap_perm (l : List PQData) {i j : Nat}
    (hi1 : 1 ≤ i) (hi2 : i ≤ l.length) (hj1 : 1 ≤ j) (hj2 : j ≤ l.length) :
    List.Perm (heapSwap l i j) l := by
  have hi : i - 1 < l.length := by omega
  have hj : j - 1 < l.length := by omega
  show List.Perm ((l.set (i-1) (l.getD (j-1) ⟨0,0⟩)).set (j-1) (l.getD (i-1) ⟨0,0⟩)) l
  rw [getD_eq_get _ _ _ hj, getD_eq_get _ _ _ hi]
  exact set_set_swap_perm l (i-1) (j-1) hi hj

/-- The heap-order invariant on Python indices: every slot with a parent is
at least its parent under the timestamp key. -/
def IsHeap (l : List PQData) : Prop :=
  ∀ j, 2 ≤ j → j ≤ l.length →
    (heapGet l (j / 2)).timestamp ≤ (heapGet l j).timestamp

theorem isHeap_root_le (l : List PQData) (hl : IsHeap l) :
    ∀ j, 1 ≤ j → j ≤ l.length →
      (heapGet l 1).timestamp ≤ (heapGet l j).timestamp := by
  intro j
  induction j using Nat.strong_induction_on with
  | _ j ih =>
    intro h1 h2
    rcases Nat.lt_or_ge j 2 with h | h
    · have hj : j = 1 := by omega
      subst hj
      exact le_refl _
    · exact le_trans (ih (j / 2) (by omega) (by omega) (by omega)) (hl j h h2)

theorem isHeap_root_min (l : List PQData) (hl : IsHeap l) (x : PQData) (hx : x ∈ l) :
    (heapGet l 1).timestamp ≤ x.timestamp := by
  obtain ⟨n, hn, hget⟩ := List.mem_iff_getElem.mp hx
  have h := isHeap_root_le l hl (n + 1) (by omega) (by omega)
  have hget2 : heapGet l (n + 1) = x := by
    rw [heapGet, Nat.add_sub_cancel, getD_eq_get _ _ _ hn]
    simpa using hget
  rwa [hget2] at h

theorem heapifyUpFuel_no_swap (fuel : Nat) (l : List PQData) (i : Nat)
    (h : ¬ (heapGet l i).timestamp < (heapGet l (i / 2)).timestamp) :
    heapifyUpFuel fuel l i = (l, i) := by
  cases fuel with
  | zero => rfl
  | succ fuel =>
    rw [heapifyUpFuel]
    by_cases h1 : 1 < i
    · rw [if_pos h1, if_neg h]
    · rw [if_neg h1]

theorem heapGet_append_left (l l2 : List PQData) {i : Nat}
    (h1 : 1 ≤ i) (h2 : i ≤ l.length) :
    heapGet (l ++ l2) i = heapGet l i := by
  rw [heapGet, heapGet]
  rw [getD_eq_get _ _ _ (show i - 1 < (l ++ l2).length from by
    rw [List.length_append]; omega)]
  rw [getD_eq_get _ _ _ (show i - 1 < l.length from by omega)]
  simp only [List.get_eq_getElem]
  exact List.getElem_append_left (by omega)

theorem heapGet_append_last (l : List PQData) (x : PQData) :
    heapGet (l ++ [x]) (l.length + 1) = x := by
  rw [heapGet, Nat.add_sub_cancel, getD_eq_get _ _ _ (by simp)]
  simp only [List.get_eq_getElem]
  rw [List.getElem_append_right (le_refl _)]
  simp

/-- `put` of an item fresher than everything in the heap appends it and
reports the last slot: the up-sift does not move it. -/
theorem put_of_fresh (l : List PQData) (item : PQData)
    (hts : ∀ x ∈ l, x.timestamp < item.timestamp) :
    PriorityQueue.put l item = (l ++ [item], l.length + 1) := by
  rw [PriorityQueue.put, heapify_up]
  apply heapifyUpFuel_no_swap
  rw [heapGet_append_last]
  rcases Nat.eq_zero_or_pos l.length with hl | hl
  · have : l = [] := List.length_eq_zero.mp hl
    subst this
    show ¬ item.timestamp < (heapGet [item] 0).timestamp
    show ¬ item.timestamp < ([item].getD 0 ⟨0,0⟩).timestamp
    simp
  · have hpar1 : 1 ≤ (l.length + 1) / 2 := by omega
    have hpar2 : (l.length + 1) / 2 ≤ l.length := by omega
    rw [heapGet_append_left l [item] hpar1 hpar2]
    have hmem : heapGet l ((l.length + 1) / 2) ∈ l := by
      rw [heapGet, getD_eq_get _ _ _ (by omega)]
      exact List.get_mem _ _ _
    exact Nat.not_lt.mpr (Nat.le_of_lt (hts _ hmem))

/-- Appending an item at least as fresh as everything in the heap keeps the
heap invariant. -/
theorem isHeap_append (l : List PQData) (item : PQData) (hl : IsHeap l)
    (hts : ∀ x ∈ l, x.timestamp ≤ item.timestamp) :
    IsHeap (l ++ [item]) := by
  intro j h2 hj
  rw [List.length_append, List.length_singleton] at hj
  rcases Nat.lt_or_ge j (l.length + 1) with hjl | hjl
  · rw [heapGet_append_left l [item] (by omega) (by omega),
      heapGet_append_left l [item] (by omega) (by omega)]
    exact hl j h2 (by omega)
  · have hj' : j = l.length + 1 := by omega
    subst hj'
    rw [heapGet_append_last]
    have hpar1 : 1 ≤ (l.length + 1) / 2 := by omega
    have hpar2 : (l.length + 1) / 2 ≤ l.length := by omega
    rw [heapGet_append_left l [item] hpar1 hpar2]
    have hmem : heapGet l ((l.length + 1) / 2) ∈ l := by
      rw [heapGet, getD_eq_get _ _ _ (by omega)]
      exact List.get_mem _ _ _
    exact hts _ hmem

/-- Heap order known everywhere except at the parent position `i`. -/
def HeapExcept (l : List PQData) (i : Nat) : Prop :=
  ∀ j, 2 ≤ j → j ≤ l.length → j / 2 ≠ i →
    (heapGet l (j / 2)).timestamp ≤ (heapGet l j).timestamp

/-- The grandparent at `i` already dominates the children of `i` (needed to
keep the order above `i` intact when its slot is swapped downwards). -/
def GrandOk (l : List PQData) (i : Nat) : Prop :=
  ∀ j, 2 ≤ j → j ≤ l.length → j / 2 = i → 2 ≤ i →
    (heapGet l (i / 2)).timestamp ≤ (heapGet l j).timestamp

theorem isHeap_of_except (l : List PQData) (i : Nat) (hE : HeapExcept l i)
    (hch : ∀ c, 2 ≤ c → c ≤ l.length → c / 2 = i →
      (heapGet l i).timestamp ≤ (heapGet l c).timestamp) :
    IsHeap l := by
  intro j h2 hj
  by_cases hji : j / 2 = i
  · rw [hji]
    exact hch j h2 hj hji
  · exact hE j h2 hj hji

/-- One swap of `heapify_down` pushes the defect from `i` to the chosen
child `js`. -/
theorem heapSwap_step (l : List PQData) (i js : Nat)
    (hi : 1 ≤ i) (hjs : js ≤ l.length) (hch : js = 2*i ∨ js = 2*i+1)
    (hE : HeapExcept l i) (hG : GrandOk l i)
    (hlt : (heapGet l js).timestamp < (heapGet l i).timestamp)
    (hsib : ∀ s, (s = 2*i ∨ s = 2*i+1) → s ≤ l.length → s ≠ js →
      (heapGet l js).timestamp ≤ (heapGet l s).timestamp) :
    HeapExcept (heapSwap l i js) js ∧ GrandOk (heapSwap l i js) js := by
  have hijs : i < js := by omega
  have hjs2 : 2 ≤ js := by omega
  have hjsdiv : js / 2 = i := by omega
  have gL : heapGet (heapSwap l i js) i = heapGet l js :=
    heapGet_heapSwap_left l js hi (by omega) (by omega)
  have gR : heapGet (heapSwap l i js) js = heapGet l i :=
    heapGet_heapSwap_right l i (by omega) hjs
  have gO : ∀ k, 1 ≤ k → k ≠ i → k ≠ js → heapGet (heapSwap l i js) k = heapGet l k :=
    fun k hk1 hki hkj => heapGet_heapSwap_other l hi (by omega) hk1 hki hkj
  have hlen : (heapSwap l i js).length = l.length := heapSwap_length l i js
  constructor
  · intro c h2 hc hne
    rw [hlen] at hc
    by_cases hci : c / 2 = i
    · have hcrange : c = 2*i ∨ c = 2*i+1 := by omega
      rw [hci]
      by_cases hcjs : c = js
      · subst hcjs
        rw [gL, gR]
        exact Nat.le_of_lt hlt
      · rw [gL, gO c (by omega) (by omega) hcjs]
        exact hsib c hcrange hc hcjs
    · by_cases hcI : c = i
      · subst hcI
        have hp1 : 1 ≤ c / 2 := by omega
        rw [gO (c / 2) hp1 (by omega) (by omega), gL]
        exact hG js hjs2 hjs hjsdiv h2
      · have hcjs : c ≠ js := fun h => hci (h.symm ▸ hjsdiv)
        rw [gO (c / 2) (by omega) hci hne, gO c (by omega) hcI hcjs]
        exact hE c h2 hc hci
  · intro c h2 hc hcp _
    rw [hlen] at hc
    rw [hjsdiv, gL]
    have hcbig : js < c := by omega
    rw [gO c (by omega) (by omega) (by omega)]
    have h := hE c h2 hc (by omega)
    rwa [hcp] at h

/-- `heapify_down`, started at a slot `i ≥ 1` whose subtree order is intact
except possibly at `i` itself, restores the full heap order and permutes
nothing in or out of the array. The fuel hypothesis is satisfied by the
`length + 1` supplied by `heapify_down`. -/
theorem heapifyDownFuel_correct : ∀ (fuel : Nat) (l : List PQData) (i : Nat),
    1 ≤ i → l.length + 1 ≤ fuel + i → HeapExcept l i → GrandOk l i →
    IsHeap (heapifyDownFuel fuel l i).1 ∧
      List.Perm (heapifyDownFuel fuel l i).1 l := by
  intro fuel
  induction fuel with
  | zero =>
    intro l i hi hfuel hE hG
    refine ⟨isHeap_of_except l i hE ?_, List.Perm.refl l⟩
    intro c _ hc hci
    omega
  | succ fuel ih =>
    intro l i hi hfuel hE hG
    rw [heapifyDownFuel]
    by_cases hA : l.length + 1 ≤ 2 * i
    · rw [if_pos hA]
      refine ⟨isHeap_of_except l i hE ?_, List.Perm.refl l⟩
      intro c _ hc hci
      omega
    · rw [if_neg hA]
      have h2i : 2 * i ≤ l.length := by omega
      by_cases hB : 2 * i + 1 < l.length + 1
      · rw [if_pos hB]
        by_cases h3 : (heapGet l (2*i+1)).timestamp < (heapGet l (2*i)).timestamp
        · rw [if_pos h3]
          by_cases h4 : (heapGet l (2*i+1)).timestamp < (heapGet l i).timestamp
          · rw [if_pos h4]
            have hstep := heapSwap_step l i (2*i+1) hi (by omega) (Or.inr rfl) hE hG h4
              (fun s hs hsl hsne => by
                have hs2i : s = 2*i := by omega
                subst hs2i
                exact Nat.le_of_lt h3)
            have hrec := ih (heapSwap l i (2*i+1)) (2*i+1) (by omega)
              (by rw [heapSwap_length]; omega) hstep.1 hstep.2
            exact ⟨hrec.1, hrec.2.trans (heapSwap_perm l hi (by omega) (by omega) (by omega))⟩
          · rw [if_neg h4]
            refine ⟨isHeap_of_except l i hE ?_, List.Perm.refl l⟩
            intro c h2 hc hci
            have hcrange : c = 2*i ∨ c = 2*i+1 := by omega
            rcases hcrange with rfl | rfl
            · exact le_trans (le_trans (Nat.not_lt.mp h4) (Nat.le_of_lt h3)) (le_refl _)
            · exact Nat.not_lt.mp h4
        · rw [if_neg h3]
          by_cases h4 : (heapGet l (2*i)).timestamp < (heapGet l i).timestamp
          · rw [if_pos h4]
            have hstep := heapSwap_step l i (2*i) hi (by omega) (Or.inl rfl) hE hG h4
              (fun s hs hsl hsne => by
                have hs2i : s = 2*i+1 := by omega
                subst hs2i
                exact Nat.not_lt.mp h3)
            have hrec := ih (heapSwap l i (2*i)) (2*i) (by omega)
              (by rw [heapSwap_length]; omega) hstep.1 hstep.2
            exact ⟨hrec.1, hrec.2.trans (heapSwap_perm l hi (by omega) (by omega) (by omega))⟩
          · rw [if_neg h4]
            refine ⟨isHeap_of_except l i hE ?_, List.Perm.refl l⟩
            intro c h2 hc hci
            have hcrange : c = 2*i ∨ c = 2*i+1 := by omega
            rcases hcrange with rfl | rfl
            · exact Nat.not_lt.mp h4
            · exact le_trans (Nat.not_lt.mp h4) (Nat.not_lt.mp h3)
      · rw [if_neg hB]
        by_cases h4 : (heapGet l (2*i)).timestamp < (heapGet l i).timestamp
        · rw [if_pos h4]
          have hstep := heapSwap_step l i (2*i) hi (by omega) (Or.inl rfl) hE hG h4
            (fun s hs hsl hsne => by omega)
          have hrec := ih (heapSwap l i (2*i)) (2*i) (by omega)
            (by rw [heapSwap_length]; omega) hstep.1 hstep.2
          exact ⟨hrec.1, hrec.2.trans (heapSwap_perm l hi (by omega) (by omega) (by omega))⟩
        · rw [if_neg h4]
          refine ⟨isHeap_of_except l i hE ?_, List.Perm.refl l⟩
          intro c h2 hc hci
          have hc2i : c = 2*i := by omega
          subst hc2i
          exact Nat.not_lt.mp h4

theorem heapGet_cons_of_two_le (a : PQData) (t : List PQData) (k : Nat) (hk : 2 ≤ k) :
    heapGet (a :: t) k = heapGet t (k - 1) := by
  obtain ⟨m, rfl⟩ : ∃ m, k = m + 2 := ⟨k - 2, by omega⟩
  show (a :: t).getD (m + 1) _ = t.getD m _
  exact List.getD_cons_succ

/-- `delete(1)` on a non-empty heap removes exactly the root and restores
the heap order. -/
theorem delete_root_correct (l : List PQData) (hl : IsHeap l) (hlen : 1 ≤ l.length) :
    IsHeap (PriorityQueue.delete l 1).1 ∧
      List.Perm (heapGet l 1 :: (PriorityQueue.delete l 1).1) l := by
  by_cases h1 : (1 : Nat) = l.length
  · rw [PriorityQueue.delete, if_pos h1]
    cases l with
    | nil => simp at hlen
    | cons x t =>
      have ht : t = [] := by
        have h := h1
        rw [List.length_cons] at h
        exact List.length_eq_zero.mp (by omega)
      subst ht
      constructor
      · intro j h2 hj
        simp at hj
        omega
      · exact List.Perm.refl _
  · rw [PriorityQueue.delete, if_neg h1, if_pos rfl]
    have hlen2 : 2 ≤ l.length := by omega
    have hne : l ≠ [] := by
      intro h
      subst h
      simp at hlen
    obtain ⟨ys, y, rfl⟩ : ∃ ys y, l = ys ++ [y] :=
      ⟨l.dropLast, l.getLast hne, (List.dropLast_concat_getLast hne).symm⟩
    have hys : 1 ≤ ys.length := by
      rw [List.length_append, List.length_singleton] at hlen2
      omega
    obtain ⟨r, mid, rfl⟩ : ∃ r mid, ys = r :: mid := by
      cases ys with
      | nil => simp at hys
      | cons a b => exact ⟨a, b, rfl⟩
    have hdrop : ((r :: mid) ++ [y]).dropLast = r :: mid := List.dropLast_concat
    have hlast : heapGet ((r :: mid) ++ [y]) ((r :: mid) ++ [y]).length = y := by
      rw [show ((r :: mid) ++ [y]).length = (r :: mid).length + 1 from by simp]
      exact heapGet_append_last (r :: mid) y
    have hroot : heapGet ((r :: mid) ++ [y]) 1 = r := by
      rw [heapGet_append_left (r :: mid) [y] (by omega) (by simp)]
      rfl
    rw [hdrop, hlast, hroot, show heapSet (r :: mid) 1 y = y :: mid from rfl,
      heapify_down]
    have hget_mid : ∀ k, 2 ≤ k → k ≤ mid.length + 1 →
        heapGet (y :: mid) k = heapGet ((r :: mid) ++ [y]) k := by
      intro k hk2 hkle
      rw [heapGet_cons_of_two_le y mid k hk2,
        heapGet_append_left (r :: mid) [y] (by omega) (by simp; omega),
        heapGet_cons_of_two_le r mid k hk2]
    have hE : HeapExcept (y :: mid) 1 := by
      intro c h2 hc hcne
      simp only [List.length_cons] at hc
      have hcp2 : 2 ≤ c / 2 := by omega
      rw [hget_mid c h2 hc, hget_mid (c / 2) hcp2 (by omega)]
      have := hl c h2 (by simp; omega)
      exact this
    have hG : GrandOk (y :: mid) 1 := by
      intro c _ _ _ h21
      omega
    have hcorrect := heapifyDownFuel_correct ((y :: mid).length + 1) (y :: mid) 1
      (le_refl 1) (by omega) hE hG
    refine ⟨hcorrect.1, ?_⟩
    have hperm : List.Perm (r :: (heapifyDownFuel ((y :: mid).length + 1) (y :: mid) 1).1)
        (r :: (y :: mid)) := hcorrect.2.cons r
    refine hperm.trans ?_
    show List.Perm (r :: y :: mid) ((r :: mid) ++ [y])
    rw [List.cons_append]
    exact ((List.perm_append_singleton y mid).symm.cons r)

/-- The priority-queue records that an insert-only run with distinct keys
produces: key `ks[s]` carries timestamp `s` (the logical clock counts
inserts). -/
def entriesAux : Nat → List Nat → List PQData
  | _, [] => []
  | t, k :: ks => ⟨k, t⟩ :: entriesAux (t+1) ks

/-- The records still present when the keys before position `e` have been
evicted. -/
def entriesFrom (ks : List Nat) (e : Nat) : List PQData :=
  entriesAux e (ks.drop e)

theorem entriesAux_length (t : Nat) (ks : List Nat) :
    (entriesAux t ks).length = ks.length := by
  induction ks generalizing t with
  | nil => rfl
  | cons k ks ih => simp [entriesAux, ih]

theorem entriesAux_append (t : Nat) (xs ys : List Nat) :
    entriesAux t (xs ++ ys) = entriesAux t xs ++ entriesAux (t + xs.length) ys := by
  induction xs generalizing t with
  | nil => simp [entriesAux]
  | cons x xs ih =>
    show (⟨x, t⟩ : PQData) :: entriesAux (t+1) (xs ++ ys)
        = ⟨x, t⟩ :: (entriesAux (t+1) xs ++ entriesAux (t + (xs.length + 1)) ys)
    rw [ih (t+1), show t + 1 + xs.length = t + (xs.length + 1) from by omega]

theorem mem_entriesAux {t : Nat} {ks : List Nat} {x : PQData}
    (hx : x ∈ entriesAux t ks) :
    t ≤ x.timestamp ∧ x.timestamp < t + ks.length ∧
      x.key = ks.getD (x.timestamp - t) 0 := by
  induction ks generalizing t with
  | nil => cases hx
  | cons k ks ih =>
    rcases List.mem_cons.mp hx with rfl | hmem
    · refine ⟨le_refl _, by simp, ?_⟩
      simp
    · obtain ⟨h1, h2, h3⟩ := ih hmem
      refine ⟨by omega, by simp; omega, ?_⟩
      obtain ⟨m, hm⟩ : ∃ m, x.timestamp - t = m + 1 := ⟨x.timestamp - t - 1, by omega⟩
      rw [hm]
      rw [show x.timestamp - (t+1) = m from by omega] at h3
      simpa using h3

theorem map_key_entriesAux (t : Nat) (ks : List Nat) :
    (entriesAux t ks).map PQData.key = ks := by
  induction ks generalizing t with
  | nil => rfl
  | cons k ks ih => simp [entriesAux, ih]

theorem drop_eq_getD_cons {ks : List Nat} {e : Nat} (he : e < ks.length) :
    ks.drop e = ks.getD e 0 :: ks.drop (e + 1) := by
  rw [List.drop_eq_getElem_cons he]
  congr 1
  simp [List.getD_eq_getElem?_getD, List.getElem?_eq_getElem he]

theorem entriesFrom_cons {ks : List Nat} {e : Nat} (he : e < ks.length) :
    entriesFrom ks e = ⟨ks.getD e 0, e⟩ :: entriesFrom ks (e + 1) := by
  rw [entriesFrom, drop_eq_getD_cons he]
  rfl

theorem entriesFrom_length (ks : List Nat) (e : Nat) :
    (entriesFrom ks e).length = ks.length - e := by
  rw [entriesFrom, entriesAux_length, List.length_drop]

theorem entriesFrom_append {ks : List Nat} {e : Nat} (k : Nat) (he : e ≤ ks.length) :
    entriesFrom (ks ++ [k]) e = entriesFrom ks e ++ [⟨k, ks.length⟩] := by
  rw [entriesFrom, entriesFrom, List.drop_append_of_le_length he, entriesAux_append]
  rw [List.length_drop, show e + (ks.length - e) = ks.length from by omega]
  rfl

theorem ts_lt_of_mem_entriesFrom {ks : List Nat} {e : Nat} {x : PQData}
    (hx : x ∈ entriesFrom ks e) : x.timestamp < ks.length := by
  obtain ⟨_, h2, _⟩ := mem_entriesAux hx
  rw [List.length_drop] at h2
  omega

/-- A heap whose contents are the surviving records and whose order holds
has the record of the oldest surviving key at its root. -/
theorem heap_root_entriesFrom (h : List PQData) (ks : List Nat) (e : Nat)
    (hperm : List.Perm h (entriesFrom ks e)) (hheap : IsHeap h)
    (he : e < ks.length) :
    heapGet h 1 = ⟨ks.getD e 0, e⟩ := by
  have hlen : 1 ≤ h.length := by
    rw [hperm.length_eq, entriesFrom_length]
    omega
  have hmem : heapGet h 1 ∈ h := by
    rw [heapGet, getD_eq_get _ _ _ (by omega)]
    exact List.get_mem _ _ _
  have hmem' : heapGet h 1 ∈ entriesFrom ks e := hperm.subset hmem
  obtain ⟨h1, h2, h3⟩ := mem_entriesAux hmem'
  have hx0 : (⟨ks.getD e 0, e⟩ : PQData) ∈ h := by
    apply hperm.symm.subset
    rw [entriesFrom_cons he]
    exact List.mem_cons_self _ _
  have hle := isHeap_root_min h hheap _ hx0
  have hts : (heapGet h 1).timestamp = e := by
    simp only at hle
    omega
  have hkey : (heapGet h 1).key = ks.getD e 0 := by
    rw [hts, Nat.sub_self] at h3
    rw [h3, drop_eq_getD_cons he]
    rfl
  show heapGet h 1 = ⟨ks.getD e 0, e⟩
  have : heapGet h 1 = ⟨(heapGet h 1).key, (heapGet h 1).timestamp⟩ := rfl
  rw [this, hkey, hts]

theorem map_fst_dictDel (d : List (Nat × EntryData)) (k : Nat) :
    (dictDel d k).map Prod.fst = (d.map Prod.fst).filter (fun x => x ≠ k) := by
  induction d with
  | nil => rfl
  | cons kv d ih =>
    by_cases hk : kv.1 = k
    · simp [dictDel, List.filter_cons, hk] at ih ⊢
      exact ih
    · simp [dictDel, List.filter_cons, hk] at ih ⊢
      exact ih

theorem map_fst_dictSet (d : List (Nat × EntryData)) (k : Nat) (v : EntryData) :
    (dictSet d k v).map Prod.fst = (d.map Prod.fst).filter (fun x => x ≠ k) ++ [k] := by
  rw [dictSet, List.map_append, ← map_fst_dictDel]
  rfl

theorem insert_eq_full (st : LRUCache) (key value : Nat) (h : st.maxsize ≤ st.numitems) :
    st.insert key value =
      { items := dictSet (dictDel st.items (PriorityQueue.get st.oldest).2.key) key
          ⟨(PriorityQueue.put (PriorityQueue.get st.oldest).1 ⟨key, st.clock⟩).2, value⟩,
        oldest := (PriorityQueue.put (PriorityQueue.get st.oldest).1 ⟨key, st.clock⟩).1,
        maxsize := st.maxsize,
        numitems := st.numitems - 1 + 1,
        clock := st.clock + 1 } := by
  simp only [LRUCache.insert, if_pos h]

theorem insert_eq_not_full (st : LRUCache) (key value : Nat)
    (h : ¬ st.maxsize ≤ st.numitems) :
    st.insert key value =
      { items := dictSet st.items key ⟨(PriorityQueue.put st.oldest ⟨key, st.clock⟩).2, value⟩,
        oldest := (PriorityQueue.put st.oldest ⟨key, st.clock⟩).1,
        maxsize := st.maxsize,
        numitems := st.numitems + 1,
        clock := st.clock + 1 } := by
  simp only [LRUCache.insert, if_neg h]

theorem getD_not_mem_drop_succ {l : List Nat} (hn : l.Nodup) {e : Nat}
    (he : e < l.length) : l.getD e 0 ∉ l.drop (e + 1) := by
  have hdn : (l.drop e).Nodup := hn.sublist (List.drop_sublist e l)
  rw [drop_eq_getD_cons he] at hdn
  exact (List.nodup_cons.mp hdn).1

/-- The invariant carried through an insert-only run: after the keys `done`
have been inserted (with timestamps equal to their positions), the cache
keeps the last `min |done| C` of them, its heap is ordered and holds exactly
their records, and the clock equals the number of inserts. -/
def CacheInv (C : Nat) (done : List Nat) (st : LRUCache) : Prop :=
  st.maxsize = C ∧ st.clock = done.length ∧ st.numitems = min done.length C ∧
  List.Perm st.oldest (entriesFrom done (done.length - C)) ∧
  IsHeap st.oldest ∧
  List.Perm (st.items.map Prod.fst) (done.drop (done.length - C))

theorem insert_step (C : Nat) (hC : 1 ≤ C) (done : List Nat) (k : Nat) (st : LRUCache)
    (hnodup : (done ++ [k]).Nodup) (hinv : CacheInv C done st) :
    CacheInv C (done ++ [k]) (st.insert k 0) ∧
    (st.maxsize ≤ st.numitems ↔ C ≤ done.length) ∧
    (C ≤ done.length →
      (PriorityQueue.get st.oldest).2.key = done.getD (done.length - C) 0) := by
  obtain ⟨hmax, hclock, hnum, hoperm, hheap, hkeys⟩ := hinv
  have hiff : st.maxsize ≤ st.numitems ↔ C ≤ done.length := by
    rw [hmax, hnum]
    omega
  have hkfresh : k ∉ done := by
    intro hk
    obtain ⟨_, _, hdisj⟩ := List.nodup_append.mp hnodup
    exact hdisj hk (List.mem_singleton_self k)
  have hdonenodup : done.Nodup := (List.nodup_append.mp hnodup).1
  have hfreshts : ∀ x ∈ st.oldest, x.timestamp < st.clock := by
    intro x hx
    rw [hclock]
    exact ts_lt_of_mem_entriesFrom (hoperm.subset hx)
  have hknotkeys : k ∉ st.items.map Prod.fst := by
    intro hk
    have := hkeys.subset hk
    exact hkfresh ((List.drop_sublist _ _).subset this)
  have hlenapp : (done ++ [k]).length = done.length + 1 := by simp
  by_cases hfull : C ≤ done.length
  · -- at capacity: the heap minimum (oldest surviving key) is evicted first
    have hel : done.length - C < done.length := by omega
    have hheaplen : 1 ≤ st.oldest.length := by
      rw [hoperm.length_eq, entriesFrom_length]
      omega
    have hroot : heapGet st.oldest 1 = ⟨done.getD (done.length - C) 0, done.length - C⟩ :=
      heap_root_entriesFrom _ _ _ hoperm hheap hel
    have hdel := delete_root_correct st.oldest hheap hheaplen
    have hget2 : (PriorityQueue.get st.oldest).2
        = ⟨done.getD (done.length - C) 0, done.length - C⟩ := hroot
    have hoperm1 : List.Perm (PriorityQueue.get st.oldest).1
        (entriesFrom done (done.length - C + 1)) := by
      show List.Perm (PriorityQueue.delete st.oldest 1).1 _
      have h2 := hdel.2.trans hoperm
      rw [entriesFrom_cons hel, hroot] at h2
      exact h2.cons_inv
    have hheap1 : IsHeap (PriorityQueue.get st.oldest).1 := hdel.1
    have hts1 : ∀ x ∈ (PriorityQueue.get st.oldest).1, x.timestamp < st.clock := by
      intro x hx
      exact hfreshts x (hdel.2.subset (List.mem_cons_of_mem _ hx))
    have hput := put_of_fresh (PriorityQueue.get st.oldest).1 ⟨k, st.clock⟩ hts1
    have hkeys1 : List.Perm ((dictDel st.items (done.getD (done.length - C) 0)).map Prod.fst)
        (done.drop (done.length - C + 1)) := by
      rw [map_fst_dictDel]
      refine (hkeys.filter (fun x => x ≠ done.getD (done.length - C) 0)).trans ?_
      rw [drop_eq_getD_cons hel, List.filter_cons]
      have hrest : ∀ a ∈ done.drop (done.length - C + 1),
          (fun x => (decide (x ≠ done.getD (done.length - C) 0))) a = true := by
        intro a ha
        simp only [ne_eq, decide_eq_true_eq]
        intro haeq
        subst haeq
        exact getD_not_mem_drop_succ hdonenodup hel ha
      rw [if_neg (by simp), List.filter_eq_self.mpr hrest]
    rw [insert_eq_full st k 0 (hiff.mpr hfull)]
    refine ⟨⟨hmax, ?_, ?_, ?_, ?_, ?_⟩, hiff, fun _ => by rw [hget2]⟩
    · show st.clock + 1 = (done ++ [k]).length
      rw [hlenapp, hclock]
    · show st.numitems - 1 + 1 = min (done ++ [k]).length C
      rw [hlenapp, hnum]
      omega
    · show List.Perm (PriorityQueue.put (PriorityQueue.get st.oldest).1 ⟨k, st.clock⟩).1
        (entriesFrom (done ++ [k]) ((done ++ [k]).length - C))
      rw [hput, hlenapp, show done.length + 1 - C = done.length - C + 1 from by omega,
        entriesFrom_append k (by omega), hclock]
      exact hoperm1.append_right _
    · show IsHeap (PriorityQueue.put (PriorityQueue.get st.oldest).1 ⟨k, st.clock⟩).1
      rw [hput]
      exact isHeap_append _ _ hheap1 (fun x hx => Nat.le_of_lt (hts1 x hx))
    · show List.Perm ((dictSet (dictDel st.items (PriorityQueue.get st.oldest).2.key) k
          ⟨(PriorityQueue.put (PriorityQueue.get st.oldest).1 ⟨k, st.clock⟩).2, 0⟩).map Prod.fst)
        ((done ++ [k]).drop ((done ++ [k]).length - C))
      rw [map_fst_dictSet, hget2]
      have hknot1 : ∀ a ∈ (dictDel st.items (done.getD (done.length - C) 0)).map Prod.fst,
          (a ≠ k : Bool) = true := by
        intro a ha
        simp only [ne_eq, decide_eq_true_eq]
        intro haeq
        subst haeq
        rw [map_fst_dictDel] at ha
        exact hknotkeys (List.mem_of_mem_filter ha)
      rw [List.filter_eq_self.mpr hknot1, hlenapp,
        show done.length + 1 - C = done.length - C + 1 from by omega,
        List.drop_append_of_le_length (by omega)]
      exact hkeys1.append_right _
  · -- below capacity: plain append
    have he0 : done.length - C = 0 := by omega
    rw [he0] at hoperm hkeys
    have hput := put_of_fresh st.oldest ⟨k, st.clock⟩ hfreshts
    rw [insert_eq_not_full st k 0 (fun h => hfull (hiff.mp h))]
    refine ⟨⟨hmax, ?_, ?_, ?_, ?_, ?_⟩, hiff, fun h => absurd h hfull⟩
    · show st.clock + 1 = (done ++ [k]).length
      rw [hlenapp, hclock]
    · show st.numitems + 1 = min (done ++ [k]).length C
      rw [hlenapp, hnum]
      omega
    · show List.Perm (PriorityQueue.put st.oldest ⟨k, st.clock⟩).1
        (entriesFrom (done ++ [k]) ((done ++ [k]).length - C))
      rw [hput, hlenapp, show done.length + 1 - C = 0 from by omega,
        entriesFrom_append k (by omega), hclock]
      exact hoperm.append_right _
    · show IsHeap (PriorityQueue.put st.oldest ⟨k, st.clock⟩).1
      rw [hput]
      exact isHeap_append _ _ hheap (fun x hx => Nat.le_of_lt (hfreshts x hx))
    · show List.Perm ((dictSet st.items k
          ⟨(PriorityQueue.put st.oldest ⟨k, st.clock⟩).2, 0⟩).map Prod.fst)
        ((done ++ [k]).drop ((done ++ [k]).length - C))
      rw [map_fst_dictSet]
      have hknot1 : ∀ a ∈ st.items.map Prod.fst, (a ≠ k : Bool) = true := by
        intro a ha
        simp only [ne_eq, decide_eq_true_eq]
        intro haeq
        subst haeq
        exact hknotkeys ha
      rw [List.filter_eq_self.mpr hknot1, hlenapp,
        show done.length + 1 - C = 0 from by omega, List.drop_zero]
      rw [List.drop_zero] at hkeys
      exact hkeys.append_right [k]

/-- A sequence of `LRUCache.insert` calls, also recording, for each insert
that found the cache at capacity, the key of the entry its eviction threw
away. -/
def runInserts : LRUCache → List Nat → LRUCache × List Nat
  | st, [] => (st, [])
  | st, k :: ks =>
    ((runInserts (st.insert k 0) ks).1,
      (if st.maxsize ≤ st.numitems then [(PriorityQueue.get st.oldest).2.key] else [])
        ++ (runInserts (st.insert k 0) ks).2)

theorem getD_append_left_nat {l1 l2 : List Nat} {n : Nat} (h : n < l1.length) (d : Nat) :
    (l1 ++ l2).getD n d = l1.getD n d := by
  rw [List.getD_eq_getElem?_getD, List.getD_eq_getElem?_getD,
    List.getElem?_eq_getElem (show n < (l1 ++ l2).length from by
      rw [List.length_append]; omega),
    List.getElem?_eq_getElem h]
  simp only [Option.getD_some]
  exact List.getElem_append_left h

theorem take_drop_cons_slice (L : List Nat) (e m : Nat) (he : e < L.length) :
    L.getD e 0 :: (L.drop (e + 1)).take m = (L.drop e).take (m + 1) := by
  rw [drop_eq_getD_cons he, List.take_succ_cons]

theorem runInserts_spec (C : Nat) (hC : 1 ≤ C) : ∀ (rest done : List Nat) (st : LRUCache),
    (done ++ rest).Nodup → CacheInv C done st →
    CacheInv C (done ++ rest) (runInserts st rest).1 ∧
    (runInserts st rest).2 = ((done ++ rest).drop (done.length - C)).take
        ((done.length + rest.length - C) - (done.length - C)) := by
  intro rest
  induction rest with
  | nil =>
    intro done st hnodup hinv
    rw [List.append_nil] at hnodup ⊢
    refine ⟨hinv, ?_⟩
    rw [show done.length + List.length ([] : List Nat) - C - (done.length - C) = 0 from by
      simp]
    rfl
  | cons k rest ih =>
    intro done st hnodup hinv
    have hassoc : done ++ k :: rest = (done ++ [k]) ++ rest := by simp
    rw [hassoc] at hnodup
    have hnodupk : (done ++ [k]).Nodup := (List.nodup_append.mp hnodup).1
    have hstep := insert_step C hC done k st hnodupk hinv
    have hih := ih (done ++ [k]) (st.insert k 0) hnodup hstep.1
    have hih2 := hih.2
    rw [← hassoc] at hih2
    rw [runInserts]
    constructor
    · rw [hassoc]
      exact hih.1
    · show (if st.maxsize ≤ st.numitems then [(PriorityQueue.get st.oldest).2.key] else [])
          ++ (runInserts (st.insert k 0) rest).2
        = ((done ++ k :: rest).drop (done.length - C)).take
            (done.length + (k :: rest).length - C - (done.length - C))
      rw [hih2]
      by_cases hfull : C ≤ done.length
      · rw [if_pos (hstep.2.1.mpr hfull), hstep.2.2 hfull, List.singleton_append]
        have hlenL : done.length - C < (done ++ k :: rest).length := by
          rw [List.length_append, List.length_cons]
          omega
        rw [show (done ++ [k]).length - C = done.length - C + 1 from by simp; omega]
        rw [show done.getD (done.length - C) 0
            = (done ++ k :: rest).getD (done.length - C) 0 from
          (getD_append_left_nat (show done.length - C < done.length from by omega) 0).symm]
        rw [take_drop_cons_slice (done ++ k :: rest) (done.length - C) _ hlenL]
        congr 1
        simp
        omega
      · rw [if_neg (fun h => hfull (hstep.2.1.mp h)), List.nil_append]
        have he0 : done.length - C = 0 := by omega
        have he0' : (done ++ [k]).length - C = 0 := by simp; omega
        rw [he0, he0']
        congr 1
        simp
        omega

/-- C5, corrected (restricted to sequences of distinct keys; see the
counterexample for a repeated key): for every capacity `C ≥ 1` and every
sequence of inserts of distinct keys whose number exceeds `C`, the cache
afterwards holds exactly
`C` entries — the last `C` keys inserted — and the keys evicted along the
way are exactly the first `length - C` keys, in insertion order. Since the
logical clock increases with every insert, those are exactly the keys whose
pre-eviction timestamps were oldest (no ties arise). -/
theorem lru_insert_bound_eviction (C : Nat) (ks : List Nat)
    (hC : 1 ≤ C) (hnodup : ks.Nodup) (hlen : C < ks.length) :
    (runInserts ⟨[], [], C, 0, 0⟩ ks).1.numitems = C ∧
    (runInserts ⟨[], [], C, 0, 0⟩ ks).1.items.length = C ∧
    List.Perm ((runInserts ⟨[], [], C, 0, 0⟩ ks).1.items.map Prod.fst)
      (ks.drop (ks.length - C)) ∧
    (runInserts ⟨[], [], C, 0, 0⟩ ks).2 = ks.take (ks.length - C) := by
  have hinv0 : CacheInv C [] ⟨[], [], C, 0, 0⟩ := by
    refine ⟨rfl, rfl, by simp, ?_, ?_, ?_⟩
    · show List.Perm [] (entriesFrom [] (0 - C))
      rw [show entriesFrom [] (0 - C) = [] from by
        rw [entriesFrom, List.drop_nil]
        rw [entriesAux]]
    · intro j h2 hj
      simp at hj
      omega
    · show List.Perm ([] : List Nat) (List.drop (0 - C) [])
      rw [List.drop_nil]
  have hspec := runInserts_spec C hC ks [] ⟨[], [], C, 0, 0⟩ (by simpa using hnodup) hinv0
  obtain ⟨hinv, hev⟩ := hspec
  rw [List.nil_append] at hinv hev
  obtain ⟨_, _, hnum, _, _, hkeysp⟩ := hinv
  refine ⟨?_, ?_, ?_, ?_⟩
  · rw [hnum]
    omega
  · have hlenmap := hkeysp.length_eq
    rw [List.length_map] at hlenmap
    rw [hlenmap, List.length_drop]
    omega
  · exact hkeysp
  · rw [hev, show List.length ([] : List Nat) - C = 0 from by simp, List.drop_zero,
      show List.length ([] : List Nat) + ks.length - C - 0 = ks.length - C from by simp]

/-- Witness for `lru_insert_bound_eviction` with capacity 2 and keys
`[5, 6, 7]`: key 5 is evicted and the cache retains `{6, 7}`. -/
theorem lru_insert_bound_eviction_witness :
    (1 ≤ 2 ∧ ([5,6,7] : List Nat).Nodup ∧ 2 < ([5,6,7] : List Nat).length) ∧
    ((runInserts ⟨[], [], 2, 0, 0⟩ [5,6,7]).1.numitems = 2 ∧
     (runInserts ⟨[], [], 2, 0, 0⟩ [5,6,7]).1.items.length = 2 ∧
     List.Perm ((runInserts ⟨[], [], 2, 0, 0⟩ [5,6,7]).1.items.map Prod.fst)
       (([5,6,7] : List Nat).drop (([5,6,7] : List Nat).length - 2)) ∧
     (runInserts ⟨[], [], 2, 0, 0⟩ [5,6,7]).2 = ([5,6,7] : List Nat).take
       (([5,6,7] : List Nat).length - 2)) :=
  ⟨⟨by decide, by decide, by decide⟩,
    lru_insert_bound_eviction 2 [5,6,7] (by decide) (by decide) (by decide)⟩

/-- C5 fails without the distinct-keys restriction: with capacity 2 and
the insert sequence `[1, 1, 2]` (three inserts, exceeding the capacity),
re-inserting key 1 overwrites its dict entry while appending a second heap
record and incrementing `numitems` again, so the eviction triggered by
inserting 2 deletes the only real entry for key 1.  The cache ends with a
single entry (key 2 alone) instead of the claimed two, even though
`numitems` reads 2. -/
theorem lru_insert_duplicate_counterexample :
    1 ≤ 2 ∧ 2 < ([1,1,2] : List Nat).length ∧
    (runInserts ⟨[], [], 2, 0, 0⟩ [1,1,2]).1.items.length = 1 ∧
    (runInserts ⟨[], [], 2, 0, 0⟩ [1,1,2]).1.numitems = 2 ∧
    (runInserts ⟨[], [], 2, 0, 0⟩ [1,1,2]).1.items.map Prod.fst = [2] := by
  decide

/-! ### functions.py: `cycle_decomposition`, `CycleDecomposition`, `CycleCount`

A `Permutation` built from a plain list is the bijection
`dict(izip([1..n], f))` with identity pairs stripped, over the letters
`[1..n]`. The `while` loop walking a cycle gets fuel (any fuel beyond the
cycle length is enough; Python relies on the permutation being well formed
for this loop to terminate). -/

/-- `Permutation.__init__` on a plain sequence: the stored bijection dict. -/
def Permutation.ofList (f : List Nat) : PyDict :=
  Bijection.init ((List.range' 1 f.length).zip f)

/-- `self.letters` of a `Permutation` built from a plain sequence. -/
def Permutation.letters (f : List Nat) : List Nat :=
  List.range' 1 f.length

/-- The `while perm[cur_elt] != cur_cycle[0]` loop of `cycle_decomposition`,
accumulating the current cycle and the visited set. -/
def cycleWhile (d : PyDict) : Nat → Nat → Nat → List Nat → List Nat →
    Option (List Nat × List Nat)
  | 0, _, _, _, _ => none
  | fuel+1, c0, cur, cyc, vis =>
    if Bijection.getitem d cur = c0 then some (cyc, vis)
    else cycleWhile d fuel c0 (Bijection.getitem d cur)
      (cyc ++ [Bijection.getitem d cur]) (vis ++ [Bijection.getitem d cur])

/-- The `for lt in perm.letters` loop of `cycle_decomposition`. -/
def cycleDecompGo (d : PyDict) (fuel : Nat) : List Nat → List Nat → List (List Nat) →
    Option (List (List Nat))
  | [], _, cycles => some cycles
  | lt :: lts, vis, cycles =>
    if Bijection.getitem d lt ∈ vis then cycleDecompGo d fuel lts vis cycles
    else
      match cycleWhile d fuel (Bijection.getitem d lt) (Bijection.getitem d lt)
          [Bijection.getitem d lt] (vis ++ [Bijection.getitem d lt]) with
      | none => none
      | some (cyc, vis') => cycleDecompGo d fuel lts vis' (cycles ++ [cyc])

/-- `cycle_decomposition(perm)` for a permutation given as its image list. -/
def cycle_decomposition (p : List Nat) (fuel : Nat) : Option (List (List Nat)) :=
  cycleDecompGo (Permutation.ofList p) fuel (Permutation.letters p) [] []

/-- `CycleCount.__init__`: `Counter(len(cycle) for cycle in cycles)`, read
pointwise. -/
def CycleCount.count (cycles : List (List Nat)) (i : Nat) : Nat :=
  (cycles.map List.length).count i

/-- `CycleCount.__iter__`: `(self[i] for i in xrange(2, max(self.count) + 1))`
— the histogram entries from length 2 up to the largest counted length
(which may be 1, for cycles that are fixed points, making the range empty). -/
def CycleCount.iter (cycles : List (List Nat)) : List Nat :=
  (List.range' 2 ((cycles.map List.length).foldr max 0 + 1 - 2)).map
    (fun i => CycleCount.count cycles i)

/-- `CycleCount.__eq__`: `all(c1 == c2 for c1, c2 in it.izip(self, obj))` —
note `izip` stops at the shorter of the two iterators. -/
def CycleCount.eq (a b : List Nat) : Bool :=
  (a.zip b).all (fun pp => pp.1 == pp.2)

/-- `CycleDecomposition.equivalent(p1, p2)`. -/
def CycleDecomposition.equivalent (p1 p2 : List Nat) (fuel : Nat) : Option Bool :=
  match cycle_decomposition p1 fuel, cycle_decomposition p2 fuel with
  | some c1, some c2 => some (CycleCount.eq (CycleCount.iter c1) (CycleCount.iter c2))
  | _, _ => none

/-- C6 fails on the code: `p1 = [2,1]` (one 2-cycle) and `p2 = [2,1,4,5,3]`
(one 2-cycle and one 3-cycle) have different CycleCount histograms — `p1`
has no 3-cycle, `p2` has one — yet `equivalent` reports `True`, because
`izip` truncates the comparison to the shorter histogram `[1]` versus
`[1,1]`. -/
theorem cyclecount_equivalent_counterexample :
    CycleDecomposition.equivalent [2,1] [2,1,4,5,3] 10 = some true ∧
    (cycle_decomposition [2,1] 10).map (fun cs => CycleCount.count cs 3) = some 0 ∧
    (cycle_decomposition [2,1,4,5,3] 10).map (fun cs => CycleCount.count cs 3) = some 1 := by
  decide

/-! ### functions.py: `add_elements`, `generate_group` (C7, C8)

Group elements are modelled by their total-function denotations over a
finite letter type `α`: a `Bijection` dict stores exactly the non-identity
pairs of its denotation, and `Bijection.__eq__` compares exactly those
pairs, so denotations determine elements up to the code's own equality.
`Permutation(elt.of(n))` then denotes `pyComp elt n` below (see
`getitem_init_of_eq_pyComp` for the bridge at dict level). Python's set
iteration order is immaterial: additions inside the loops are set unions,
and re-derived elements are skipped exactly when already present. -/

/-- The function denoted by `Permutation(elt.of(n))`: `elt.of(n)` binds each
stored (non-fixed) point `x` of `n` to `elt(n(x))`; everything else falls
back to the identity via the fixed-point lookup. -/
def pyComp {α : Type} [DecidableEq α] (p q : α → α) : α → α :=
  fun x => if q x ≠ x then p (q x) else x

theorem lookup_of_mem_keys {q : PyDict} {x : Nat} (hx : x ∈ Bijection.keys q) :
    ∃ y, List.lookup x q = some y ∧ (x, y) ∈ q := by
  induction q with
  | nil => cases hx
  | cons kv rest ih =>
    by_cases hk : kv.1 = x
    · refine ⟨kv.2, ?_, ?_⟩
      · show List.lookup x (kv :: rest) = some kv.2
        simp [List.lookup, hk]
      · rw [show (x, kv.2) = kv from by rw [← hk]]
        exact List.mem_cons_self _ _
    · have hx' : x ∈ Bijection.keys rest := by
        rcases List.mem_cons.mp (show x ∈ kv.1 :: Bijection.keys rest from hx) with h | h
        · exact absurd h.symm hk
        · exact h
      obtain ⟨y, h1, h2⟩ := ih hx'
      refine ⟨y, ?_, List.mem_cons_of_mem _ h2⟩
      show List.lookup x (kv :: rest) = some y
      simp only [List.lookup, beq_false_of_ne (fun h => hk h.symm)]
      exact h1

theorem lookup_of_not_mem_keys {q : PyDict} {x : Nat} (hx : x ∉ Bijection.keys q) :
    List.lookup x q = none := by
  induction q with
  | nil => rfl
  | cons kv rest ih =>
    have hk : x ≠ kv.1 := fun h => hx (by rw [h]; exact List.mem_cons_self _ _)
    show List.lookup x (kv :: rest) = none
    simp only [List.lookup, beq_false_of_ne hk]
    exact ih (fun h => hx (List.mem_cons_of_mem _ h))

/-- Bridge at the dict level: on a stored bijection dict (no identity
pairs), composing and rebuilding a `Permutation` denotes exactly `pyComp`
of the two lookups. -/
theorem getitem_init_of_eq_pyComp (p q : PyDict)
    (hq : ∀ kv ∈ q, kv.1 ≠ kv.2) (x : Nat) :
    Bijection.getitem (Bijection.init (Bijection.of p q)) x
      = pyComp (Bijection.getitem p) (Bijection.getitem q) x := by
  have hmain := Bijection.getitem_init_map (Bijection.keys q)
    (fun k => Bijection.getitem p (Bijection.getitem q k)) x
  rw [show Bijection.of p q = (Bijection.keys q).map
      (fun k => (k, Bijection.getitem p (Bijection.getitem q k))) from rfl, hmain, pyComp]
  by_cases hmem : x ∈ Bijection.keys q
  · rw [if_pos hmem]
    obtain ⟨y, h1, h2⟩ := lookup_of_mem_keys hmem
    have hmoves : Bijection.getitem q x ≠ x := by
      rw [Bijection.getitem, h1]
      exact (hq (x, y) h2).symm
    rw [if_pos hmoves]
  · rw [if_neg hmem]
    have hfix : Bijection.getitem q x = x := by
      rw [Bijection.getitem, lookup_of_not_mem_keys hmem]
    rw [hfix, if_neg (fun h => h rfl)]

/-- `add_elements(elt, new, group)`: compute `Permutation(elt.of(n))` for
every frontier element `n`, add the unseen ones to the group, and return
(updated group, newly computed set). -/
def add_elements {α : Type} [Fintype α] [DecidableEq α]
    (elt : α → α) (new group : Finset (α → α)) :
    Finset (α → α) × Finset (α → α) :=
  (group ∪ (new.image (pyComp elt)).filter (fun g => g ∉ group),
    (new.image (pyComp elt)).filter (fun g => g ∉ group))

/-- The `for elt in gens: computed |= add_elements(elt, new, group)` round
of `generate_group`; the accumulator carries (group, computed). -/
def genRound {α : Type} [Fintype α] [DecidableEq α]
    (gens : List (α → α)) (new group : Finset (α → α)) :
    Finset (α → α) × Finset (α → α) :=
  gens.foldl (fun acc elt =>
    ((add_elements elt new acc.1).1, acc.2 ∪ (add_elements elt new acc.1).2))
    (group, ∅)

/-- The `while len(new) > 0` loop of `generate_group`, with fuel standing
for the number of rounds the loop is still allowed to run. -/
def generate_group_fuel {α : Type} [Fintype α] [DecidableEq α] :
    Nat → List (α → α) → Finset (α → α) → Finset (α → α) → Option (Finset (α → α))
  | 0, _, _, _ => none
  | fuel+1, gens, new, group =>
    if 0 < new.card then
      generate_group_fuel fuel gens (genRound gens new group).2 (genRound gens new group).1
    else some group

/-- `generate_group(gens)`: `new, group = set(gens), set(gens)`, then the
saturation loop. -/
def generate_group {α : Type} [Fintype α] [DecidableEq α]
    (gens : List (α → α)) (fuel : Nat) : Option (Finset (α → α)) :=
  generate_group_fuel fuel gens gens.toFinset gens.toFinset

theorem genRound_spec {α : Type} [Fintype α] [DecidableEq α]
    (gens : List (α → α)) (new group : Finset (α → α)) :
    (genRound gens new group).1 = group ∪ (genRound gens new group).2 ∧
    ∀ x ∈ (genRound gens new group).2, x ∉ group := by
  suffices h : ∀ (gs : List (α → α)) (g c : Finset (α → α)),
      g = group ∪ c → (∀ x ∈ c, x ∉ group) →
      (gs.foldl (fun acc elt =>
        ((add_elements elt new acc.1).1, acc.2 ∪ (add_elements elt new acc.1).2)) (g, c)).1
        = group ∪ (gs.foldl (fun acc elt =>
            ((add_elements elt new acc.1).1, acc.2 ∪ (add_elements elt new acc.1).2)) (g, c)).2 ∧
      ∀ x ∈ (gs.foldl (fun acc elt =>
          ((add_elements elt new acc.1).1, acc.2 ∪ (add_elements elt new acc.1).2)) (g, c)).2,
        x ∉ group by
    exact h gens group ∅ (by simp) (by simp)
  intro gs
  induction gs with
  | nil =>
    intro g c hg hc
    exact ⟨hg, hc⟩
  | cons e gs ih =>
    intro g c hg hc
    rw [List.foldl_cons]
    apply ih
    · show (add_elements e new g).1 = group ∪ (c ∪ (add_elements e new g).2)
      rw [add_elements, hg]
      rw [Finset.union_assoc]
    · intro x hx
      rcases Finset.mem_union.mp hx with hxc | hxn
      · exact hc x hxc
      · have := (Finset.mem_filter.mp hxn).2
        rw [hg] at this
        intro hxg
        exact this (Finset.mem_union_left _ hxg)

theorem generate_group_fuel_sufficient {α : Type} [Fintype α] [DecidableEq α]
    (gens : List (α → α)) : ∀ (fuel : Nat) (new group : Finset (α → α)),
    2 * (Fintype.card (α → α) - group.card) + (if 0 < new.card then 1 else 0) < fuel →
    ∃ r, generate_group_fuel fuel gens new group = some r := by
  intro fuel
  induction fuel with
  | zero =>
    intro new group h
    omega
  | succ fuel ih =>
    intro new group h
    rw [generate_group_fuel]
    by_cases hnew : 0 < new.card
    · rw [if_pos hnew]
      obtain ⟨hunion, hdisj⟩ := genRound_spec gens new group
      have hsub : group ⊆ (genRound gens new group).1 := by
        rw [hunion]
        exact Finset.subset_union_left
      have hcard1 : (genRound gens new group).1.card ≤ Fintype.card (α → α) :=
        Finset.card_le_univ _
      rw [if_pos hnew] at h
      by_cases hcomp : 0 < (genRound gens new group).2.card
      · obtain ⟨x, hx⟩ := Finset.card_pos.mp hcomp
        have hssub : group ⊂ (genRound gens new group).1 :=
          Finset.ssubset_iff_of_subset hsub |>.mpr
            ⟨x, by rw [hunion]; exact Finset.mem_union_right _ hx, hdisj x hx⟩
        have hlt := Finset.card_lt_card hssub
        apply ih
        rw [if_pos hcomp]
        omega
      · apply ih
        rw [if_neg hcomp]
        have : group.card ≤ (genRound gens new group).1.card := Finset.card_le_card hsub
        omega
    · rw [if_neg hnew]
      exact ⟨group, rfl⟩

/-- C7: for every finite collection of elements over a finite letter type,
`generate_group` halts — some amount of fuel (at most two rounds per
possible element, plus one final empty-frontier check) makes the saturation
loop return. Each round either strictly enlarges the group inside the
finite ambient function space or empties the frontier. -/
theorem generate_group_terminates {α : Type} [Fintype α] [DecidableEq α]
    (gens : List (α → α)) :
    ∃ fuel r, generate_group gens fuel = some r := by
  refine ⟨2 * Fintype.card (α → α) + 2, ?_⟩
  rw [generate_group]
  apply generate_group_fuel_sufficient
  have h1 : Fintype.card (α → α) - gens.toFinset.card ≤ Fintype.card (α → α) :=
    Nat.sub_le _ _
  by_cases h : 0 < gens.toFinset.card <;> simp [h] <;> omega

/-- The stored (non-identity) domain of an element — the letters its
bijection dict actually binds. -/
def storedDomain {α : Type} [Fintype α] [DecidableEq α] (f : α → α) : Finset α :=
  Finset.univ.filter (fun x => f x ≠ x)

/-- The transposition (1 2) on four letters. -/
def swap01 : Fin 4 → Fin 4 :=
  fun x => if x = 0 then 1 else if x = 1 then 0 else x

/-- The transposition (3 4) on four letters. -/
def swap23 : Fin 4 → Fin 4 :=
  fun x => if x = 2 then 3 else if x = 3 then 2 else x

/-- C8 fails on the code: `generate_group` performs no validation at all —
there is no `InvalidGeneratorError` anywhere in the source — so on the
generators (1 2) and (3 4), whose domains differ, it simply composes them
and returns a group (the composites degenerate to the factors or the
identity under the code's fixed-point composition). -/
theorem generate_group_no_domain_validation :
    storedDomain swap01 ≠ storedDomain swap23 ∧
    (generate_group [swap01, swap23] 10).map
        (fun s => decide ((id : Fin 4 → Fin 4) ∈ s) && decide (s.card = 3))
      = some true := by
  constructor
  · decide
  · decide

/-- C8, corrected: generators drawn from different domains are accepted
without any error being signalled; the closure loop runs on them and
terminates normally like on any other input. -/
theorem generate_group_mixed_domains_returns {α : Type} [Fintype α] [DecidableEq α]
    (gens : List (α → α)) (p q : α → α) (_hp : p ∈ gens) (_hq : q ∈ gens)
    (_hdom : storedDomain p ≠ storedDomain q) :
    ∃ fuel r, generate_group gens fuel = some r := by
  refine ⟨2 * Fintype.card (α → α) + 2, ?_⟩
  rw [generate_group]
  apply generate_group_fuel_sufficient
  have h1 : Fintype.card (α → α) - gens.toFinset.card ≤ Fintype.card (α → α) :=
    Nat.sub_le _ _
  by_cases h : 0 < gens.toFinset.card <;> simp [h] <;> omega

/-- Witness for `generate_group_mixed_domains_returns` at the generators
(1 2) and (3 4). -/
theorem generate_group_mixed_domains_returns_witness :
    (storedDomain swap01 ≠ storedDomain swap23) ∧
    ∃ fuel r, generate_group [swap01, swap23] fuel = some r :=
  ⟨by decide, generate_group_mixed_domains_returns [swap01, swap23] swap01 swap23
    (by decide) (by decide) (by decide)⟩

/-! ### serialize.py: the alternate inversion-sequence codec (C10)

`merge`/`mergesort` thread the `inversions` defaultdict as a total function
with default 0. `mergesort` recurses without a base case for the empty
list (`cut_idx` is 0 there, so Python recurses forever); it therefore gets
fuel, and any fuel of at least the list length suffices for non-empty
input. -/

/-- `merge(left, right, inversions)`: the `for _ in xrange(lenl - il)` bump
adds the number of remaining left elements to `inversions[elt]` in one
step. -/
def merge : List Nat → List Nat → (Nat → Nat) → List Nat × (Nat → Nat)
  | [], rs, inv => (rs, inv)
  | l :: ls, [], inv => (l :: ls, inv)
  | l :: ls, r :: rs, inv =>
    if l ≤ r then
      ((merge ls (r :: rs) inv).1.cons l, (merge ls (r :: rs) inv).2)
    else
      ((merge (l :: ls) rs
          (fun v => if v = r then inv r + (l :: ls).length else inv v)).1.cons r,
        (merge (l :: ls) rs
          (fun v => if v = r then inv r + (l :: ls).length else inv v)).2)
termination_by ls rs _ => ls.length + rs.length

/-- `mergesort(lst, inversions)`, with fuel for the recursion depth. -/
def mergesortFuel : Nat → List Nat → (Nat → Nat) → Option (List Nat × (Nat → Nat))
  | 0, _, _ => none
  | fuel+1, lst, inversions =>
    if lst.length = 1 then some (lst, inversions)
    else
      match mergesortFuel fuel (lst.take ((lst.length + 1) / 2)) inversions with
      | none => none
      | some lr =>
        match mergesortFuel fuel (lst.drop ((lst.length + 1) / 2)) lr.2 with
        | none => none
        | some rr => some (merge lr.1 rr.1 rr.2)

/-- `long_perm_to_inv_seq(perm)`:
`[inversions[i] for i in xrange(1, len(perm) + 1)]`. -/
def long_perm_to_inv_seq (fuel : Nat) (perm : List Nat) : Option (List Nat) :=
  (mergesortFuel fuel perm (fun _ => 0)).map
    (fun r => (List.range' 1 perm.length).map r.2)

/-- The inner `for j in xrange(i + 1, len(perm))` loop of
`short_perm_to_inv_seq`: bump `inv_seq[perm[j] - 1]` for each later element
smaller than `perm[i]`. -/
def shortInner (a : Nat) (rest : List Nat) (arr : List Nat) : List Nat :=
  rest.foldl (fun arr b =>
    if b < a then arr.set (b - 1) (arr.getD (b - 1) 0 + 1) else arr) arr

/-- The outer loop of `short_perm_to_inv_seq`, walking the suffixes of the
permutation (index loops over the unchanged list are suffix walks). -/
def shortGo : List Nat → List Nat → List Nat
  | [], arr => arr
  | a :: rest, arr => shortGo rest (shortInner a rest arr)

/-- `short_perm_to_inv_seq(perm)`. -/
def short_perm_to_inv_seq (perm : List Nat) : List Nat :=
  shortGo perm (List.replicate perm.length 0)

/-- `inv_seq_to_int(inv_seq)`: `sum(factorial(n - i) * inv_seq[i])` with
`n = len(inv_seq) - 1`. -/
def inv_seq_to_int (inv_seq : List Nat) : Nat :=
  ((List.range inv_seq.length).map
    (fun i => Nat.factorial (inv_seq.length - 1 - i) * inv_seq.getD i 0)).sum

/-- `alt_perm_to_int(perm, threshold)`: `threshold = None` defaults to
`len(perm) + 1`, so the short algorithm is chosen; an explicit threshold at
most the length selects the merge-sort algorithm. -/
def alt_perm_to_int (fuel : Nat) (perm : List Nat) (threshold : Option Nat) :
    Option Nat :=
  let t := match threshold with
    | none => perm.length + 1
    | some t => t
  if perm.length < t then some (inv_seq_to_int (short_perm_to_inv_seq perm))
  else (long_perm_to_inv_seq fuel perm).map inv_seq_to_int

/-- The number of inversions of `l` whose smaller (right-hand) value is
`v`: pairs `i < j` with `l i > l j` and `l j = v`. -/
def invCount : List Nat → Nat → Nat
  | [], _ => 0
  | a :: xs, v => (if v < a then xs.count v else 0) + invCount xs v

/-- `mergesort` loops forever on the empty list (the cut at index 0 leaves
the problem unchanged). -/
def mergesortTerminatesOn (l : List Nat) : Prop :=
  ∃ fuel out, mergesortFuel fuel l (fun _ => 0) = some out

theorem mergesortFuel_nil : ∀ (fuel : Nat) (inv : Nat → Nat),
    mergesortFuel fuel [] inv = none := by
  intro fuel
  induction fuel with
  | zero => intro inv; rfl
  | succ f ih =>
    intro inv
    rw [mergesortFuel]
    rw [if_neg (by simp)]
    simp only [List.take_nil, List.drop_nil, ih]

/-- C10 fails on the code at the empty permutation: the short algorithm
returns the empty inversion sequence, but the merge-sort algorithm never
returns (its recursion does not shrink the empty list), so the two
algorithms do not produce the same inversion sequence for every
permutation of `{1, ..., n}`. -/
theorem inv_seq_empty_counterexample :
    short_perm_to_inv_seq [] = [] ∧ ¬ mergesortTerminatesOn [] := by
  constructor
  · rfl
  · rintro ⟨fuel, out, h⟩
    rw [mergesortFuel_nil] at h
    cases h

/-- `merge` of two sorted lists sorts their union and adds, for each value
`v`, one inversion per occurrence of `v` on the right and element on the
left exceeding it. -/
theorem merge_spec : ∀ (ls rs : List Nat) (inv : Nat → Nat),
    List.Sorted (· ≤ ·) ls → List.Sorted (· ≤ ·) rs →
    List.Sorted (· ≤ ·) (merge ls rs inv).1 ∧
    List.Perm (merge ls rs inv).1 (ls ++ rs) ∧
    ∀ v, (merge ls rs inv).2 v
      = inv v + rs.count v * ls.countP (fun x => decide (v < x))
  | [], rs, inv, _, hrs => by
    rw [merge]
    refine ⟨hrs, by simp, ?_⟩
    intro v
    simp
  | l :: ls, [], inv, hls, _ => by
    rw [merge]
    refine ⟨hls, by simp, ?_⟩
    intro v
    simp
  | l :: ls, r :: rs, inv, hls, hrs => by
    rw [merge]
    have hlls := List.sorted_cons.mp hls
    have hrrs := List.sorted_cons.mp hrs
    by_cases hlr : l ≤ r
    · rw [if_pos hlr]
      obtain ⟨ihs, ihp, ihc⟩ := merge_spec ls (r :: rs) inv hlls.2 hrs
      refine ⟨?_, ?_, ?_⟩
      · rw [List.sorted_cons]
        refine ⟨?_, ihs⟩
        intro b hb
        rcases List.mem_append.mp (ihp.subset hb) with h | h
        · exact hlls.1 b h
        · rcases List.mem_cons.mp h with rfl | h
          · exact hlr
          · exact le_trans hlr (hrrs.1 b h)
      · exact ihp.cons l
      · intro v
        show (merge ls (r :: rs) inv).2 v = _
        rw [ihc v, List.countP_cons]
        by_cases hv : v ∈ r :: rs
        · have hrv : r ≤ v := by
            rcases List.mem_cons.mp hv with rfl | h
            · exact le_refl v
            · exact hrrs.1 v h
          have hnl : (decide (v < l)) = false := by
            simp only [decide_eq_false_iff_not]
            omega
          rw [hnl]
          simp
        · rw [List.count_eq_zero.mpr hv]
          simp
    · rw [if_neg hlr]
      have hrl : r < l := Nat.not_le.mp hlr
      obtain ⟨ihs, ihp, ihc⟩ := merge_spec (l :: ls) rs
        (fun v => if v = r then inv r + (l :: ls).length else inv v) hls hrrs.2
      refine ⟨?_, ?_, ?_⟩
      · rw [List.sorted_cons]
        refine ⟨?_, ihs⟩
        intro b hb
        rcases List.mem_append.mp (ihp.subset hb) with h | h
        · rcases List.mem_cons.mp h with rfl | h
          · exact Nat.le_of_lt hrl
          · exact le_trans (Nat.le_of_lt hrl) (hlls.1 b h)
        · exact hrrs.1 b h
      · exact (ihp.cons r).trans List.perm_middle.symm
      · intro v
        show (merge (l :: ls) rs _).2 v = _
        rw [ihc v]
        by_cases hvr : v = r
        · subst hvr
          simp only [eq_self_iff_true, if_true]
          have hcp : (l :: ls).countP (fun x => decide (v < x)) = (l :: ls).length := by
            rw [List.countP_eq_length]
            intro a ha
            simp only [decide_eq_true_eq]
            rcases List.mem_cons.mp ha with rfl | h
            · exact hrl
            · exact lt_of_lt_of_le hrl (hlls.1 a h)
          rw [hcp, List.count_cons_self]
          ring
        · simp only [if_neg hvr]
          rw [List.count_cons_of_ne hvr]
termination_by ls rs _ => ls.length + rs.length

theorem invCount_append (xs ys : List Nat) (v : Nat) :
    invCount (xs ++ ys) v
      = invCount xs v + invCount ys v
        + ys.count v * xs.countP (fun x => decide (v < x)) := by
  induction xs with
  | nil => simp [invCount]
  | cons a xs ih =>
    show (if v < a then (xs ++ ys).count v else 0) + invCount (xs ++ ys) v = _
    rw [ih, List.count_append, List.countP_cons]
    show _ = (if v < a then xs.count v else 0) + invCount xs v + invCount ys v
      + ys.count v * (xs.countP (fun x => decide (v < x)) + if decide (v < a) = true then 1 else 0)
    by_cases hva : v < a
    · simp only [if_pos hva, decide_eq_true_eq, decide_True]
      ring
    · simp only [if_neg hva, decide_eq_true_eq, decide_False]
      ring

/-- `mergesort` on a non-empty list (fuel at least the length) sorts it and
adds exactly its inversion counts to the carried dict. -/
theorem mergesortFuel_spec : ∀ (fuel : Nat) (l : List Nat) (inv : Nat → Nat),
    l ≠ [] → l.length ≤ fuel →
    ∃ out, mergesortFuel fuel l inv = some out ∧
      List.Sorted (· ≤ ·) out.1 ∧ List.Perm out.1 l ∧
      ∀ v, out.2 v = inv v + invCount l v := by
  intro fuel
  induction fuel with
  | zero =>
    intro l inv hne hlen
    exact absurd (List.length_eq_zero.mp (Nat.le_zero.mp hlen)) hne
  | succ fuel ih =>
    intro l inv hne hlen
    rw [mergesortFuel]
    by_cases h1 : l.length = 1
    · rw [if_pos h1]
      obtain ⟨x, rfl⟩ : ∃ x, l = [x] := List.length_eq_one.mp h1
      refine ⟨([x], inv), rfl, by simp, List.Perm.refl _, ?_⟩
      intro v
      simp [invCount]
    · rw [if_neg h1]
      have hlen2 : 2 ≤ l.length := by
        have : l.length ≠ 0 := fun h => hne (List.length_eq_zero.mp h)
        omega
      have htlen : (l.take ((l.length + 1) / 2)).length = (l.length + 1) / 2 := by
        rw [List.length_take]
        omega
      have hdlen : (l.drop ((l.length + 1) / 2)).length = l.length - (l.length + 1) / 2 :=
        List.length_drop _ _
      obtain ⟨outL, hOutL, hsortL, hpermL, hinvL⟩ :=
        ih (l.take ((l.length + 1) / 2)) inv
          (fun h => by rw [h] at htlen; simp at htlen; omega)
          (by omega)
      obtain ⟨outR, hOutR, hsortR, hpermR, hinvR⟩ :=
        ih (l.drop ((l.length + 1) / 2)) outL.2
          (fun h => by rw [h] at hdlen; simp at hdlen; omega)
          (by omega)
      simp only [hOutL, hOutR]
      obtain ⟨hms, hmp, hmc⟩ := merge_spec outL.1 outR.1 outR.2 hsortL hsortR
      refine ⟨merge outL.1 outR.1 outR.2, rfl, hms, ?_, ?_⟩
      · refine hmp.trans ?_
        refine (hpermL.append hpermR).trans ?_
        rw [List.take_append_drop]
      · intro v
        rw [hmc v, hinvR v, hinvL v, hpermR.count_eq, hpermL.countP_eq]
        conv_rhs => rw [← List.take_append_drop ((l.length + 1) / 2) l, invCount_append]
        ring

theorem getD_set_self_nat (l : List Nat) {m : Nat} (h : m < l.length) (x d : Nat) :
    (l.set m x).getD m d = x := by
  simp [List.getD_eq_getElem?_getD, List.getElem?_set_self h]

theorem getD_set_ne_nat (l : List Nat) {m n : Nat} (h : m ≠ n) (x d : Nat) :
    (l.set m x).getD n d = l.getD n d := by
  simp [List.getD_eq_getElem?_getD, List.getElem?_set_ne h]

theorem foldl_bump_length : ∀ (rest : List Nat) (a : Nat) (arr : List Nat),
    (rest.foldl (fun arr b =>
      if b < a then arr.set (b - 1) (arr.getD (b - 1) 0 + 1) else arr) arr).length
      = arr.length := by
  intro rest a
  induction rest with
  | nil => intro arr; rfl
  | cons b rest ih =>
    intro arr
    rw [List.foldl_cons, ih]
    by_cases hb : b < a <;> simp [hb]

theorem shortInner_getD : ∀ (rest : List Nat) (a : Nat) (arr : List Nat) (j : Nat),
    j < arr.length → (∀ b ∈ rest, 1 ≤ b ∧ b ≤ arr.length) →
    (shortInner a rest arr).getD j 0
      = arr.getD j 0 + (if j + 1 < a then rest.count (j + 1) else 0)
  | [], a, arr, j, hj, hb => by simp [shortInner]
  | b :: rest, a, arr, j, hj, hbs => by
    have hb := hbs b (List.mem_cons_self _ _)
    have harr' : (if b < a then arr.set (b - 1) (arr.getD (b - 1) 0 + 1) else arr).length
        = arr.length := by
      by_cases hba : b < a <;> simp [hba]
    have ih := shortInner_getD rest a
      (if b < a then arr.set (b - 1) (arr.getD (b - 1) 0 + 1) else arr) j
      (by rw [harr']; exact hj)
      (fun c hc => by rw [harr']; exact hbs c (List.mem_cons_of_mem _ hc))
    rw [show shortInner a (b :: rest) arr
        = shortInner a rest (if b < a then arr.set (b - 1) (arr.getD (b - 1) 0 + 1) else arr)
      from rfl]
    rw [ih]
    by_cases hba : b < a
    · rw [if_pos hba] at *
      by_cases hbj : b - 1 = j
      · subst hbj
        rw [getD_set_self_nat arr (by omega) _ _]
        have hb1 : b - 1 + 1 = b := by omega
        rw [hb1, List.count_cons_self, if_pos hba, if_pos hba]
        omega
      · rw [getD_set_ne_nat arr hbj _ _]
        have hbj' : b ≠ j + 1 := by omega
        rw [List.count_cons_of_ne (fun h => hbj' h.symm)]
    · rw [if_neg hba] at *
      by_cases hja : j + 1 < a
      · have hbj' : b ≠ j + 1 := by omega
        rw [if_pos hja, if_pos hja, List.count_cons_of_ne (fun h => hbj' h.symm)]
      · rw [if_neg hja, if_neg hja]

theorem shortGo_getD : ∀ (l : List Nat) (arr : List Nat) (j : Nat),
    j < arr.length → (∀ b ∈ l, 1 ≤ b ∧ b ≤ arr.length) →
    (shortGo l arr).getD j 0 = arr.getD j 0 + invCount l (j + 1)
  | [], arr, j, hj, hb => by simp [shortGo, invCount]
  | a :: rest, arr, j, hj, hbs => by
    rw [show shortGo (a :: rest) arr = shortGo rest (shortInner a rest arr) from rfl]
    have hlen : (shortInner a rest arr).length = arr.length := foldl_bump_length rest a arr
    rw [shortGo_getD rest (shortInner a rest arr) j (by rw [hlen]; exact hj)
      (fun c hc => by rw [hlen]; exact hbs c (List.mem_cons_of_mem _ hc))]
    rw [shortInner_getD rest a arr j hj (fun c hc => hbs c (List.mem_cons_of_mem _ hc))]
    rw [show invCount (a :: rest) (j + 1)
        = (if j + 1 < a then rest.count (j + 1) else 0) + invCount rest (j + 1) from rfl]
    omega

theorem shortGo_length : ∀ (l arr : List Nat), (shortGo l arr).length = arr.length
  | [], _ => rfl
  | a :: rest, arr => by
    rw [show shortGo (a :: rest) arr = shortGo rest (shortInner a rest arr) from rfl,
      shortGo_length rest _]
    exact foldl_bump_length rest a arr

theorem getD_replicate_zero : ∀ (m i : Nat), (List.replicate m (0:Nat)).getD i 0 = 0
  | 0, 0 => rfl
  | 0, _+1 => rfl
  | _+1, 0 => rfl
  | m+1, i+1 => getD_replicate_zero m i

/-- C10, corrected (the empty permutation excluded): for every `n ≥ 1` and
every permutation `p` of `{1, ..., n}`, the direct pairwise count and the
counting merge sort produce the same inversion sequence, so
`alt_perm_to_int` yields the same integer regardless of the threshold. -/
theorem inv_seq_algorithms_agree (n : Nat) (hn : 1 ≤ n) (p : List Nat)
    (hp : List.Perm p (List.range' 1 n)) :
    long_perm_to_inv_seq (n + 1) p = some (short_perm_to_inv_seq p) ∧
    ∀ t : Option Nat, alt_perm_to_int (n + 1) p t
      = some (inv_seq_to_int (short_perm_to_inv_seq p)) := by
  have hlen : p.length = n := by rw [hp.length_eq, List.length_range']
  have hne : p ≠ [] := by
    intro h
    rw [h] at hlen
    simp at hlen
    omega
  obtain ⟨out, hout, _, _, hinv⟩ :=
    mergesortFuel_spec (n + 1) p (fun _ => 0) hne (by omega)
  have hvals : ∀ b ∈ p, 1 ≤ b ∧ b ≤ p.length := by
    intro b hb
    have hmem := hp.subset hb
    rw [List.mem_range'_1] at hmem
    omega
  have hshortlen : (short_perm_to_inv_seq p).length = p.length := by
    rw [short_perm_to_inv_seq, shortGo_length, List.length_replicate]
  have hmain : long_perm_to_inv_seq (n + 1) p = some (short_perm_to_inv_seq p) := by
    rw [long_perm_to_inv_seq, hout, Option.map_some']
    congr 1
    apply List.ext_getElem
    · rw [List.length_map, List.length_range', hshortlen, hlen]
    · intro i h1 h2
      rw [List.getElem_map, List.getElem_range',
        ← List.getD_eq_getElem (short_perm_to_inv_seq p) 0 h2]
      rw [show short_perm_to_inv_seq p = shortGo p (List.replicate p.length 0) from rfl]
      rw [shortGo_getD p (List.replicate p.length 0) i
          (by rw [List.length_replicate, ← hshortlen]; exact h2)
          (by rw [List.length_replicate]; exact hvals),
        getD_replicate_zero, hinv (1 + 1 * i)]
      rw [show 1 + 1 * i = i + 1 from by omega]
  refine ⟨hmain, ?_⟩
  intro t
  cases t with
  | none =>
    show (if p.length < p.length + 1 then _ else _) = _
    rw [if_pos (by omega)]
  | some t0 =>
    show (if p.length < t0 then _ else _) = _
    by_cases ht : p.length < t0
    · rw [if_pos ht]
    · rw [if_neg ht, hmain, Option.map_some']

/-- Witness for `inv_seq_algorithms_agree` at `p = [2,1,3]`, `n = 3`. -/
theorem inv_seq_algorithms_agree_witness :
    (1 ≤ 3 ∧ List.Perm [2,1,3] (List.range' 1 3)) ∧
    (long_perm_to_inv_seq 4 [2,1,3] = some (short_perm_to_inv_seq [2,1,3]) ∧
     ∀ t : Option Nat, alt_perm_to_int 4 [2,1,3] t
       = some (inv_seq_to_int (short_perm_to_inv_seq [2,1,3]))) :=
  ⟨⟨by decide, by decide⟩, inv_seq_algorithms_agree 3 (by decide) [2,1,3] (by decide)⟩

/-! ### The segmented prime sieve `xprimes` and the sequence codec -/

/-- One prime's marking pass inside `xprimes`:
`while m < upper: nums.add(m); m += p`, returning the marked numbers and
the final multiple.  Fueled; fuel `upper` always suffices since `p ≥ 1`. -/
def markOne (p upper : Nat) : Nat → Nat → List Nat × Nat
  | 0, m => ([], m)
  | fuel+1, m =>
    if m < upper then
      (m :: (markOne p upper fuel (m + p)).1, (markOne p upper fuel (m + p)).2)
    else ([], m)

/-- The marking loop of `xprimes` over `enumerate(primes)` with parallel
`multiples`, including the early `break` once `p * p > upper`; returns the
set `nums` (as a list) and the updated `multiples`. -/
def markAll : List Nat → List Nat → Nat → List Nat × List Nat
  | [], ms, _ => ([], ms)
  | _ :: _, [], _ => ([], [])
  | p :: ps, m :: ms, upper =>
    if upper < p * p then ([], m :: ms)
    else
      ((markOne p upper upper m).1 ++ (markAll ps ms upper).1,
       (markOne p upper upper m).2 :: (markAll ps ms upper).2)

/-- The local state of the `xprimes` generator between two `yield` bursts. -/
structure SieveState where
  primes : List Nat
  multiples : List Nat
  lower : Nat
  upper : Nat

/-- The `nums` set computed by one outer-loop iteration of `xprimes`. -/
def segNums (s : SieveState) : List Nat :=
  (markAll s.primes s.multiples s.upper).1

/-- The numbers yielded by one outer-loop iteration of `xprimes`:
`[i for i in xrange(lower, upper) if i not in nums]`. -/
def segNews (s : SieveState) : List Nat :=
  (List.range' s.lower (s.upper - s.lower)).filter
    (fun i => !(List.elem i (segNums s)))

/-- One outer-loop iteration of `xprimes` (with the default `step = 1000`):
mark, collect the unmarked numbers of `[lower, upper)` as new primes
(appending `i + i` to `multiples` for each), then
`lower = upper + 1; upper += min(upper, step)`. -/
def segStep (s : SieveState) : List Nat × SieveState :=
  (segNews s,
   ⟨s.primes ++ segNews s,
    (markAll s.primes s.multiples s.upper).2 ++ (segNews s).map (fun i => i + i),
    s.upper + 1,
    s.upper + min s.upper 1000⟩)

/-- The initial state of `xprimes`:
`primes = [2]; multiples = [4]; lower = 2; upper = 4`. -/
def sieveInit : SieveState := ⟨[2], [4], 2, 4⟩

/-- Run `fuel` outer-loop iterations of `xprimes`, collecting all yields. -/
def sieveRun : Nat → List Nat × SieveState
  | 0 => ([], sieveInit)
  | n+1 =>
    ((sieveRun n).1 ++ (segStep (sieveRun n).2).1, (segStep (sieveRun n).2).2)

/-- The prefix of the `xprimes` stream produced by `fuel` iterations. -/
def sieveYields (fuel : Nat) : List Nat := (sieveRun fuel).1

/-- `seq_to_int(s)`: `i = 1; for p, j in zip(xprimes(), s): i *= p ** j`.
Returns `none` when `fuel` sieve iterations have not yet produced
`len(s)` primes (the Python generator always produces enough). -/
def seq_to_int (fuel : Nat) (s : List Nat) : Option Nat :=
  if s.length ≤ (sieveYields fuel).length then
    some (((sieveYields fuel).zip s).foldl (fun i pj => i * pj.1 ^ pj.2) 1)
  else none

/-- The inner `while i % p == 0: s[-1] += 1; i /= p` loop of `int_to_seq`,
returning the number of divisions and the final value.  Fueled; fuel `i`
always suffices for `p ≥ 2`. -/
def divOut (p : Nat) : Nat → Nat → Nat × Nat
  | 0, i => (0, i)
  | fuel+1, i =>
    if i % p = 0 then
      ((divOut p fuel (i / p)).1 + 1, (divOut p fuel (i / p)).2)
    else (0, i)

/-- The outer `while i != 1` loop of `int_to_seq`, consuming one prime of
the stream per iteration (`none` when the supplied stream prefix runs
out first). -/
def intToSeqGo : List Nat → Nat → Option (List Nat)
  | [], i => if i = 1 then some [] else none
  | p :: ps, i =>
    if i = 1 then some []
    else
      match intToSeqGo ps (divOut p i i).2 with
      | none => none
      | some rest => some ((divOut p i i).1 :: rest)

/-- `int_to_seq(i)`, with the prime stream given by `fuel` sieve
iterations. -/
def int_to_seq (fuel i : Nat) : Option (List Nat) :=
  intToSeqGo (sieveYields fuel) i

/-- C9 counterexample: the sequence `[0]` encodes to `1` (the empty
product), but `1` decodes to the empty sequence, not `[0]`: trailing
zeros are lost by the codec, refuting the round-trip for every sequence. -/
theorem seq_codec_trailing_zero_counterexample :
    (seq_to_int 1 [0]).bind (int_to_seq 1) = some [] ∧ ([] : List Nat) ≠ [0] :=
  ⟨rfl, by decide⟩

theorem markOne_snd_ge (p upper : Nat) : ∀ fuel m, m ≤ (markOne p upper fuel m).2
  | 0, m => le_refl m
  | fuel+1, m => by
    rw [markOne]
    by_cases h : m < upper
    · rw [if_pos h]
      exact le_trans (Nat.le_add_right m p) (markOne_snd_ge p upper fuel (m + p))
    · rw [if_neg h]

theorem markOne_mem (p upper : Nat) : ∀ fuel m x, x ∈ (markOne p upper fuel m).1 →
    m ≤ x ∧ x < upper ∧ (p ∣ m → p ∣ x)
  | 0, _, _, hx => absurd hx (List.not_mem_nil _)
  | fuel+1, m, x, hx => by
    rw [markOne] at hx
    by_cases h : m < upper
    · rw [if_pos h] at hx
      rcases List.mem_cons.mp hx with rfl | hx'
      · exact ⟨le_refl x, h, fun hm => hm⟩
      · obtain ⟨h1, h2, h3⟩ := markOne_mem p upper fuel (m + p) x hx'
        exact ⟨le_trans (Nat.le_add_right m p) h1, h2,
          fun hm => h3 (Nat.dvd_add hm (dvd_refl p))⟩
    · rw [if_neg h] at hx
      exact absurd hx (List.not_mem_nil _)

theorem markOne_complete (p upper : Nat) (hp : 1 ≤ p) :
    ∀ fuel m c, p ∣ m → p ∣ c → m ≤ c → c < upper → upper ≤ m + fuel →
    c ∈ (markOne p upper fuel m).1
  | 0, m, c, _, _, hmc, hcu, hfuel => absurd (lt_of_le_of_lt hmc hcu) (by omega)
  | fuel+1, m, c, hdm, hdc, hmc, hcu, hfuel => by
    rw [markOne, if_pos (lt_of_le_of_lt hmc hcu)]
    by_cases hec : m = c
    · exact hec ▸ List.mem_cons_self _ _
    · refine List.mem_cons_of_mem _ (markOne_complete p upper hp fuel (m + p) c
        (Nat.dvd_add hdm (dvd_refl p)) hdc ?_ hcu (by omega))
      have hdiff : p ∣ c - m := Nat.dvd_sub' hdc hdm
      have hne : c - m ≠ 0 := by omega
      have := Nat.le_of_dvd (Nat.pos_of_ne_zero hne) hdiff
      omega

theorem markOne_snd_spec (p upper : Nat) (hp : 1 ≤ p) :
    ∀ fuel m, p ∣ m → upper ≤ m + fuel →
    upper ≤ (markOne p upper fuel m).2 ∧ p ∣ (markOne p upper fuel m).2 ∧
    ∀ y, p ∣ y → m ≤ y → y < (markOne p upper fuel m).2 → y < upper
  | 0, m, hdm, hfuel => by
    rw [show markOne p upper 0 m = ([], m) from rfl]
    refine ⟨by omega, hdm, ?_⟩
    intro y _ h1 h2
    exact absurd (lt_of_le_of_lt h1 h2) (lt_irrefl m)
  | fuel+1, m, hdm, hfuel => by
    rw [markOne]
    by_cases h : m < upper
    · rw [if_pos h]
      obtain ⟨h1, h2, h3⟩ := markOne_snd_spec p upper hp fuel (m + p)
        (Nat.dvd_add hdm (dvd_refl p)) (by omega)
      refine ⟨h1, h2, ?_⟩
      intro y hdy hmy hy2
      by_cases hyp : m + p ≤ y
      · exact h3 y hdy hyp hy2
      · have hdiff : p ∣ y - m := Nat.dvd_sub' hdy hdm
        have : y = m := by
          rcases Nat.eq_zero_or_pos (y - m) with h0 | hpos
          · omega
          · have := Nat.le_of_dvd hpos hdiff
            omega
        omega
    · rw [if_neg h]
      refine ⟨by omega, hdm, ?_⟩
      intro y _ h1 h2
      exact absurd (lt_of_le_of_lt h1 h2) (lt_irrefl m)

/-- The invariant tying a prime `p` to its entry `m` of `multiples`: `m`
is a multiple of `p`, at least `2 * p`, and every composite multiple of
`p` below `m` lies below `lower` (so it needed no further marking). -/
def PairInv (lower p m : Nat) : Prop :=
  p ∣ m ∧ 2 * p ≤ m ∧ ∀ k, 2 ≤ k → k * p < m → k * p < lower

theorem PairInv.mono {lower lower' p m : Nat} (h : lower ≤ lower')
    (hp : PairInv lower p m) : PairInv lower' p m :=
  ⟨hp.1, hp.2.1, fun k hk hkm => lt_of_lt_of_le (hp.2.2 k hk hkm) h⟩

theorem markAll_sound (upper lower : Nat) :
    ∀ ps ms, List.Forall₂ (PairInv lower) ps ms → (∀ p ∈ ps, 2 ≤ p) →
    ∀ x ∈ (markAll ps ms upper).1, ¬ Nat.Prime x := by
  intro ps ms hf
  induction hf with
  | nil =>
    intro _ x hx
    exact absurd hx (List.not_mem_nil _)
  | cons hpm hrest ih =>
    rename_i p m ps' ms'
    intro h2 x hx hprime
    rw [markAll] at hx
    by_cases hbr : upper < p * p
    · rw [if_pos hbr] at hx
      exact absurd hx (List.not_mem_nil _)
    · rw [if_neg hbr] at hx
      rcases List.mem_append.mp hx with hx1 | hx2
      · obtain ⟨hmx, _, hdx⟩ := markOne_mem p upper upper m x hx1
        have hpx : p ∣ x := hdx hpm.1
        have hp2 : 2 ≤ p := h2 p (List.mem_cons_self _ _)
        have h2pm : 2 * p ≤ m := hpm.2.1
        obtain ⟨k, hk⟩ := hpx
        have hk2 : 2 ≤ k := by
          rcases Nat.lt_or_ge k 2 with hklt | hkge
          · interval_cases k <;> omega
          · exact hkge
        rcases (hprime.eq_one_or_self_of_dvd p ⟨k, hk⟩) with h1 | hself
        · omega
        · rw [hk] at hself
          have hpk : p * 1 = p * k := by rw [Nat.mul_one]; exact hself
          have : 1 = k := Nat.eq_of_mul_eq_mul_left (by omega) hpk
          omega
      · exact ih (fun q hq => h2 q (List.mem_cons_of_mem _ hq)) x hx2 hprime

theorem markAll_complete (upper lower : Nat) :
    ∀ ps ms, List.Forall₂ (PairInv lower) ps ms → List.Sorted (· ≤ ·) ps →
    (∀ p ∈ ps, 2 ≤ p) →
    ∀ c q, q ∈ ps → q ∣ c → q * q ≤ c → lower ≤ c → c < upper →
    c ∈ (markAll ps ms upper).1 := by
  intro ps ms hf
  induction hf with
  | nil =>
    intro _ _ _ q hq
    exact absurd hq (List.not_mem_nil _)
  | cons hpm hrest ih =>
    rename_i p m ps' ms'
    intro hsort h2 c q hq hdc hsq hlc hcu
    have hpq : p ≤ q := by
      rcases List.mem_cons.mp hq with rfl | hq'
      · exact le_refl q
      · exact (List.sorted_cons.mp hsort).1 q hq'
    rw [markAll]
    have hbr : ¬ upper < p * p := by
      have : p * p ≤ q * q := Nat.mul_le_mul hpq hpq
      omega
    rw [if_neg hbr]
    rcases List.mem_cons.mp hq with rfl | hq'
    · refine List.mem_append.mpr (Or.inl ?_)
      have hq2 : 2 ≤ q := h2 q (List.mem_cons_self _ _)
      have hmc : m ≤ c := by
        by_contra hcm
        obtain ⟨k, hk⟩ := hdc
        have hk2 : 2 ≤ k := by
          have : q * 2 ≤ q * k := by
            rw [← hk]
            calc q * 2 ≤ q * q := Nat.mul_le_mul_left q hq2
            _ ≤ c := hsq
          exact Nat.le_of_mul_le_mul_left this (by omega)
        have := hpm.2.2 k hk2 (by rw [Nat.mul_comm, ← hk]; omega)
        rw [Nat.mul_comm, ← hk] at this
        omega
      exact markOne_complete q upper (by omega) upper m c hpm.1 hdc hmc hcu (by omega)
    · exact List.mem_append.mpr (Or.inr
        (ih (List.sorted_cons.mp hsort).2 (fun r hr => h2 r (List.mem_cons_of_mem _ hr))
          c q hq' hdc hsq hlc hcu))

theorem markAll_snd (upper lower : Nat) (hlu : lower ≤ upper) :
    ∀ ps ms, List.Forall₂ (PairInv lower) ps ms → (∀ p ∈ ps, 2 ≤ p) →
    List.Forall₂ (PairInv (upper + 1)) ps (markAll ps ms upper).2 := by
  intro ps ms hf
  induction hf with
  | nil =>
    intro _
    exact List.Forall₂.nil
  | cons hpm hrest ih =>
    rename_i p m ps' ms'
    intro h2
    rw [markAll]
    by_cases hbr : upper < p * p
    · rw [if_pos hbr]
      exact List.Forall₂.cons (hpm.mono (by omega))
        (hrest.imp (fun a b hab => hab.mono (by omega)))
    · rw [if_neg hbr]
      have hp2 : 2 ≤ p := h2 p (List.mem_cons_self _ _)
      obtain ⟨h1, hdm', h3⟩ := markOne_snd_spec p upper (by omega) upper m hpm.1 (by omega)
      refine List.Forall₂.cons ⟨hdm', ?_, ?_⟩
        (ih (fun r hr => h2 r (List.mem_cons_of_mem _ hr)))
      · exact le_trans hpm.2.1 (markOne_snd_ge p upper upper m)
      · intro k hk2 hkm
        by_cases hmk : m ≤ k * p
        · have := h3 (k * p) (dvd_mul_left p k) hmk hkm
          omega
        · have := hpm.2.2 k hk2 (by omega)
          omega

/-- The primes of `[2, b)` in increasing order. -/
def primesBelow (b : Nat) : List Nat :=
  (List.range' 2 (b - 2)).filter (fun x => decide (Nat.Prime x))

/-- The reachable-state invariant of `xprimes`: `primes` holds `2`
followed by every prime below `lower`, each `multiples` entry satisfies
`PairInv`, the window `[lower, upper)` is below `lower ^ 2`, and `upper`
stays even. -/
structure SieveInv (s : SieveState) : Prop where
  hprimes : s.primes = 2 :: primesBelow s.lower
  hpairs : List.Forall₂ (PairInv s.lower) s.primes s.multiples
  hupsq : s.upper ≤ s.lower * s.lower
  hlow2 : 2 ≤ s.lower
  hlowup : s.lower ≤ s.upper
  hup4 : 4 ≤ s.upper
  heven : s.upper % 2 = 0

theorem mem_primesBelow {x b : Nat} :
    x ∈ primesBelow b ↔ Nat.Prime x ∧ 2 ≤ x ∧ x < b := by
  rw [primesBelow, List.mem_filter, List.mem_range'_1, decide_eq_true_eq]
  constructor
  · rintro ⟨⟨h2, hx⟩, hp⟩
    exact ⟨hp, h2, by omega⟩
  · rintro ⟨hp, h2, hx⟩
    exact ⟨⟨h2, by omega⟩, hp⟩

theorem primes_ge2 {s : SieveState} (h : SieveInv s) : ∀ p ∈ s.primes, 2 ≤ p := by
  intro p hp
  rw [h.hprimes] at hp
  rcases List.mem_cons.mp hp with rfl | hp'
  · exact le_refl 2
  · exact (mem_primesBelow.mp hp').2.1

theorem primesBelow_sorted (b : Nat) : List.Sorted (· < ·) (primesBelow b) :=
  List.Pairwise.filter _ (List.pairwise_lt_range' 2 (b - 2) 1 (by simp))

theorem primes_sorted {s : SieveState} (h : SieveInv s) :
    List.Sorted (· ≤ ·) s.primes := by
  rw [h.hprimes]
  rw [List.sorted_cons]
  refine ⟨fun b hb => (mem_primesBelow.mp hb).2.1, ?_⟩
  exact (primesBelow_sorted s.lower).imp (fun h => le_of_lt h)

theorem mem_primes_of_prime {s : SieveState} (h : SieveInv s) {q : Nat}
    (hq : Nat.Prime q) (hql : q < s.lower) : q ∈ s.primes := by
  rw [h.hprimes]
  by_cases h2 : q = 2
  · exact h2 ▸ List.mem_cons_self _ _
  · refine List.mem_cons_of_mem _ (mem_primesBelow.mpr ⟨hq, hq.two_le, hql⟩)

theorem even_not_prime {u : Nat} (h4 : 4 ≤ u) (he : u % 2 = 0) : ¬ Nat.Prime u := by
  intro hp
  rcases hp.eq_one_or_self_of_dvd 2 (Nat.dvd_of_mod_eq_zero he) with h1 | h2
  · omega
  · omega

theorem primesBelow_split (a b : Nat) (h2 : 2 ≤ a) (hab : a ≤ b) :
    primesBelow a ++ (List.range' a (b - a)).filter (fun x => decide (Nat.Prime x))
      = primesBelow b := by
  rw [primesBelow, primesBelow, ← List.filter_append]
  congr 1
  have h := List.range'_append_1 2 (a - 2) (b - a)
  rw [show 2 + (a - 2) = a from by omega] at h
  rw [h]
  congr 1
  omega

/-- The numbers a segment yields are exactly the primes of `[lower, upper)`. -/
theorem segNews_primes (s : SieveState) (h : SieveInv s) :
    segNews s = (List.range' s.lower (s.upper - s.lower)).filter
      (fun x => decide (Nat.Prime x)) := by
  rw [segNews]
  apply List.filter_congr
  intro i hi
  rw [List.mem_range'_1] at hi
  by_cases hpi : Nat.Prime i
  · have hni : i ∉ segNums s := fun hmem =>
      markAll_sound s.upper s.lower s.primes s.multiples h.hpairs (primes_ge2 h)
        i hmem hpi
    have he : List.elem i (segNums s) = false := by
      cases helem : List.elem i (segNums s)
      · rfl
      · exact absurd (List.elem_iff.mp helem) hni
    rw [he]
    simp [hpi]
  · have hi2 : 2 ≤ i := by
      have := h.hlow2
      omega
    have hil : s.lower ≤ i := hi.1
    have hq := Nat.minFac_prime (show i ≠ 1 by omega)
    have hqd := Nat.minFac_dvd i
    have hqsq : i.minFac * i.minFac ≤ i := by
      have := Nat.minFac_sq_le_self (show 0 < i by omega) hpi
      rwa [Nat.pow_two] at this
    have hql : i.minFac < s.lower := by
      by_contra hge
      push_neg at hge
      have h1 : s.lower * s.lower ≤ i.minFac * i.minFac := Nat.mul_le_mul hge hge
      have h2 := h.hupsq
      omega
    have hmem : i ∈ segNums s :=
      markAll_complete s.upper s.lower s.primes s.multiples h.hpairs
        (primes_sorted h) (primes_ge2 h) i i.minFac
        (mem_primes_of_prime h hq hql) hqd hqsq hil
        (by have := h.hlowup; omega)
    have he : List.elem i (segNums s) = true := List.elem_iff.mpr hmem
    rw [he]
    simp [hpi]

/-- One segment step preserves the sieve invariant. -/
theorem segStep_inv (s : SieveState) (h : SieveInv s) : SieveInv (segStep s).2 := by
  have hnews := segNews_primes s h
  have hmin2 : 4 ≤ min s.upper 1000 := by
    have := h.hup4
    omega
  refine ⟨?_, ?_, ?_, ?_, ?_, ?_, ?_⟩
  · show s.primes ++ segNews s = 2 :: primesBelow (s.upper + 1)
    rw [h.hprimes, hnews]
    rw [List.cons_append]
    congr 1
    rw [primesBelow_split s.lower s.upper h.hlow2 h.hlowup]
    rw [primesBelow, primesBelow]
    rw [show s.upper + 1 - 2 = (s.upper - 2) + 1 from by have := h.hup4; omega]
    rw [@List.range'_concat 1 2 (s.upper - 2)]
    rw [show 2 + 1 * (s.upper - 2) = s.upper from by have := h.hup4; omega]
    rw [List.filter_append]
    rw [show (List.filter (fun x => decide (Nat.Prime x)) [s.upper]) = [] from by
      simp [even_not_prime h.hup4 h.heven]]
    rw [List.append_nil]
  · show List.Forall₂ (PairInv (s.upper + 1)) (s.primes ++ segNews s) _
    refine List.rel_append ?_ ?_
    · exact markAll_snd s.upper s.lower h.hlowup s.primes s.multiples h.hpairs
        (primes_ge2 h)
    · rw [List.forall₂_map_right_iff, List.forall₂_same]
      intro x hx
      have hx2 : s.lower ≤ x := by
        rw [hnews, List.mem_filter, List.mem_range'_1] at hx
        exact hx.1.1
      have hl2 := h.hlow2
      refine ⟨⟨2, by omega⟩, by omega, ?_⟩
      intro k hk hkx
      have : k * x < 2 * x := by omega
      have hxpos : 0 < x := by omega
      have : k < 2 := lt_of_mul_lt_mul_right this (Nat.zero_le x)
      omega
  · show s.upper + min s.upper 1000 ≤ (s.upper + 1) * (s.upper + 1)
    have hexp : (s.upper + 1) * (s.upper + 1)
        = s.upper * s.upper + s.upper + s.upper + 1 := by ring
    have hup1 : 1 ≤ s.upper := by have := h.hup4; omega
    have : s.upper ≤ s.upper * s.upper := Nat.le_mul_of_pos_left s.upper hup1
    omega
  · show 2 ≤ s.upper + 1
    have := h.hup4
    omega
  · show s.upper + 1 ≤ s.upper + min s.upper 1000
    omega
  · show 4 ≤ s.upper + min s.upper 1000
    have := h.hup4
    omega
  · show (s.upper + min s.upper 1000) % 2 = 0
    have := h.heven
    omega

theorem sieveInit_inv : SieveInv sieveInit := by
  refine ⟨rfl, ?_, by decide, by decide, by decide, by decide, by decide⟩
  refine List.Forall₂.cons ⟨⟨2, rfl⟩, by omega, ?_⟩ List.Forall₂.nil
  intro k hk hkm
  omega

/-- After any number of iterations the invariant holds and the yields so
far are exactly the primes below the current `lower`. -/
theorem sieveRun_spec : ∀ N, SieveInv (sieveRun N).2 ∧
    (sieveRun N).1 = primesBelow (sieveRun N).2.lower
  | 0 => ⟨sieveInit_inv, rfl⟩
  | N+1 => by
    obtain ⟨hinv, hy⟩ := sieveRun_spec N
    refine ⟨segStep_inv _ hinv, ?_⟩
    show (sieveRun N).1 ++ (segStep (sieveRun N).2).1
        = primesBelow (segStep (sieveRun N).2).2.lower
    rw [hy]
    show primesBelow (sieveRun N).2.lower ++ segNews (sieveRun N).2
        = primesBelow ((sieveRun N).2.upper + 1)
    rw [segNews_primes _ hinv,
      primesBelow_split _ _ hinv.hlow2 hinv.hlowup]
    rw [primesBelow, primesBelow]
    rw [show (sieveRun N).2.upper + 1 - 2 = ((sieveRun N).2.upper - 2) + 1 from by
      have := hinv.hup4; omega]
    rw [@List.range'_concat 1 2 ((sieveRun N).2.upper - 2)]
    rw [show 2 + 1 * ((sieveRun N).2.upper - 2) = (sieveRun N).2.upper from by
      have := hinv.hup4; omega]
    rw [List.filter_append]
    rw [show (List.filter (fun x => decide (Nat.Prime x)) [(sieveRun N).2.upper]) = []
      from by simp [even_not_prime hinv.hup4 hinv.heven]]
    rw [List.append_nil]

theorem sieveRun_lower_succ (N : Nat) :
    (sieveRun N).2.lower + 1 ≤ (sieveRun (N+1)).2.lower := by
  obtain ⟨hinv, _⟩ := sieveRun_spec N
  show (sieveRun N).2.lower + 1 ≤ (sieveRun N).2.upper + 1
  have := hinv.hlowup
  omega

theorem sieveRun_lower_add (N : Nat) : ∀ k,
    (sieveRun N).2.lower + k ≤ (sieveRun (N + k)).2.lower
  | 0 => le_refl _
  | k+1 => by
    have h1 := sieveRun_lower_add N k
    have h2 := sieveRun_lower_succ (N + k)
    rw [show N + (k + 1) = (N + k) + 1 from by omega]
    omega

/-- The sieve stream is inexhaustible: enough iterations produce any
requested number of primes. -/
theorem exists_fuel_yields : ∀ n, ∃ N, n ≤ (sieveYields N).length
  | 0 => ⟨0, Nat.zero_le _⟩
  | n+1 => by
    obtain ⟨N, hN⟩ := exists_fuel_yields n
    obtain ⟨p, hple, hp⟩ := Nat.exists_infinite_primes ((sieveRun N).2.lower)
    refine ⟨N + (p + 1 - (sieveRun N).2.lower), ?_⟩
    set M := N + (p + 1 - (sieveRun N).2.lower) with hM
    obtain ⟨hinvN, hyN⟩ := sieveRun_spec N
    obtain ⟨hinvM, hyM⟩ := sieveRun_spec M
    have hlowM : p + 1 ≤ (sieveRun M).2.lower := by
      have h := sieveRun_lower_add N (p + 1 - (sieveRun N).2.lower)
      rw [← hM] at h
      omega
    have hsplit := primesBelow_split ((sieveRun N).2.lower) ((sieveRun M).2.lower)
      hinvN.hlow2 (by omega)
    have hpmem : p ∈ (List.range' ((sieveRun N).2.lower)
        ((sieveRun M).2.lower - (sieveRun N).2.lower)).filter
        (fun x => decide (Nat.Prime x)) := by
      rw [List.mem_filter, List.mem_range'_1, decide_eq_true_eq]
      exact ⟨⟨hple, by omega⟩, hp⟩
    have hlenN : n ≤ (primesBelow ((sieveRun N).2.lower)).length := by
      rw [← hyN]
      exact hN
    show n + 1 ≤ (sieveRun M).1.length
    rw [hyM, ← hsplit, List.length_append]
    have : 1 ≤ ((List.range' ((sieveRun N).2.lower)
        ((sieveRun M).2.lower - (sieveRun N).2.lower)).filter
        (fun x => decide (Nat.Prime x))).length :=
      List.length_pos.mpr (List.ne_nil_of_mem hpmem)
    omega

theorem sieveYields_primes (N : Nat) :
    ∀ q ∈ sieveYields N, Nat.Prime q := by
  intro q hq
  have := (sieveRun_spec N).2
  rw [sieveYields, this] at hq
  exact (mem_primesBelow.mp hq).1

theorem sieveYields_sorted (N : Nat) : List.Pairwise (· < ·) (sieveYields N) := by
  rw [sieveYields, (sieveRun_spec N).2]
  exact primesBelow_sorted _

/-- The encoded value `∏ pᵢ ^ sᵢ` over the zipped prime stream. -/
def prodPows (ps s : List Nat) : Nat :=
  (ps.zip s).foldl (fun i pj => i * pj.1 ^ pj.2) 1

theorem foldl_mul_pow (l : List (Nat × Nat)) : ∀ c : Nat,
    l.foldl (fun i pj => i * pj.1 ^ pj.2) c
      = c * l.foldl (fun i pj => i * pj.1 ^ pj.2) 1 := by
  induction l with
  | nil => intro c; simp
  | cons a l ih =>
    intro c
    rw [List.foldl_cons, List.foldl_cons, ih (c * a.1 ^ a.2), ih (1 * a.1 ^ a.2)]
    ring

theorem prodPows_nil (ps : List Nat) : prodPows ps [] = 1 := by
  rw [prodPows, List.zip_nil_right]
  rfl

theorem prodPows_cons (p a : Nat) (ps s : List Nat) :
    prodPows (p :: ps) (a :: s) = p ^ a * prodPows ps s := by
  rw [prodPows, prodPows, List.zip_cons_cons, List.foldl_cons, foldl_mul_pow]
  ring

theorem prodPows_pos : ∀ (ps s : List Nat), (∀ q ∈ ps, 0 < q) → 1 ≤ prodPows ps s
  | [], s, _ => by
    rw [prodPows, List.zip_nil_left]
    exact le_refl 1
  | _ :: _, [], _ => by
    rw [prodPows_nil]
  | p :: ps, a :: s, h => by
    rw [prodPows_cons]
    have h1 : 0 < p ^ a := pow_pos (h p (List.mem_cons_self _ _)) a
    have h2 := prodPows_pos ps s (fun r hr => h r (List.mem_cons_of_mem _ hr))
    exact Nat.mul_pos h1 (by omega)

theorem prime_not_dvd_prodPows (p : Nat) (hp : Nat.Prime p) :
    ∀ ps s, (∀ q ∈ ps, Nat.Prime q ∧ q ≠ p) → ¬ p ∣ prodPows ps s
  | [], s, _ => by
    rw [prodPows, List.zip_nil_left]
    intro hdvd
    have h1 := Nat.dvd_one.mp hdvd
    have := hp.two_le
    omega
  | _ :: _, [], _ => by
    rw [prodPows_nil]
    intro hdvd
    have h1 := Nat.dvd_one.mp hdvd
    have := hp.two_le
    omega
  | q :: ps, a :: s, h => by
    rw [prodPows_cons]
    intro hdvd
    obtain ⟨hq, hqp⟩ := h q (List.mem_cons_self _ _)
    rcases (Nat.Prime.dvd_mul hp).mp hdvd with h1 | h2
    · have hpq : p ∣ q := hp.dvd_of_dvd_pow h1
      exact hqp ((Nat.prime_dvd_prime_iff_eq hp hq).mp hpq).symm
    · exact prime_not_dvd_prodPows p hp ps s
        (fun r hr => h r (List.mem_cons_of_mem _ hr)) h2

theorem prodPows_ge_two : ∀ (s ps : List Nat), s.getLast? ≠ some 0 → s ≠ [] →
    s.length ≤ ps.length → (∀ q ∈ ps, Nat.Prime q) → 2 ≤ prodPows ps s
  | [], _, _, hne, _, _ => absurd rfl hne
  | [a], ps, hlast, _, hlen, hq => by
    match ps with
    | [] => simp at hlen
    | p :: ps' =>
      rw [prodPows_cons, prodPows_nil, Nat.mul_one]
      have ha : a ≠ 0 := by
        intro h0
        rw [h0] at hlast
        exact hlast rfl
      have hp2 := (hq p (List.mem_cons_self _ _)).two_le
      calc 2 ≤ p := hp2
      _ = p ^ 1 := (pow_one p).symm
      _ ≤ p ^ a := Nat.pow_le_pow_right (by omega) (by omega)
  | a :: b :: s, ps, hlast, _, hlen, hq => by
    match ps with
    | [] => simp at hlen
    | p :: ps' =>
      rw [prodPows_cons]
      have hrec := prodPows_ge_two (b :: s) ps'
        (by rwa [List.getLast?_cons_cons] at hlast) (by simp)
        (by simpa using hlen) (fun r hr => hq r (List.mem_cons_of_mem _ hr))
      have h1 : 0 < p ^ a := pow_pos (hq p (List.mem_cons_self _ _)).pos a
      calc 2 ≤ prodPows ps' (b :: s) := hrec
      _ = 1 * prodPows ps' (b :: s) := (Nat.one_mul _).symm
      _ ≤ p ^ a * prodPows ps' (b :: s) := Nat.mul_le_mul_right _ h1

theorem divOut_spec (p : Nat) (hp : 2 ≤ p) :
    ∀ a fuel r, ¬ p ∣ r → 1 ≤ r → a ≤ fuel →
    divOut p fuel (p ^ a * r) = (a, r)
  | 0, fuel, r, hr, _, _ => by
    rw [pow_zero, one_mul]
    match fuel with
    | 0 => rfl
    | f+1 =>
      rw [divOut, if_neg (fun h => hr (Nat.dvd_iff_mod_eq_zero.mpr h))]
  | a+1, fuel, r, hr, hr1, hfuel => by
    match fuel with
    | 0 => exact absurd hfuel (by omega)
    | f+1 =>
      rw [divOut]
      have hd : (p ^ (a+1) * r) % p = 0 :=
        Nat.mod_eq_zero_of_dvd (Dvd.dvd.mul_right (dvd_pow_self p (Nat.succ_ne_zero a)) r)
      rw [if_pos hd]
      have hdiv : p ^ (a+1) * r / p = p ^ a * r := by
        rw [pow_succ, Nat.mul_right_comm]
        exact Nat.mul_div_cancel _ (by omega)
      rw [hdiv, divOut_spec p hp a f r hr hr1 (by omega)]

theorem intToSeqGo_correct : ∀ (s ps : List Nat),
    (∀ q ∈ ps, Nat.Prime q) → List.Pairwise (· < ·) ps →
    s.length ≤ ps.length → s.getLast? ≠ some 0 →
    intToSeqGo ps (prodPows ps s) = some s
  | [], ps, _, _, _, _ => by
    rw [prodPows, List.zip_nil_right]
    show intToSeqGo ps 1 = some []
    match ps with
    | [] => rfl
    | p :: ps' => rw [intToSeqGo, if_pos rfl]
  | a :: s', ps, hq, hpw, hlen, hlast => by
    match ps with
    | [] => simp at hlen
    | p :: ps' =>
      rw [prodPows_cons, intToSeqGo]
      have hp := hq p (List.mem_cons_self _ _)
      have hq' : ∀ r ∈ ps', Nat.Prime r ∧ r ≠ p := by
        intro r hr
        refine ⟨hq r (List.mem_cons_of_mem _ hr), ?_⟩
        have := (List.pairwise_cons.mp hpw).1 r hr
        omega
      have hnd : ¬ p ∣ prodPows ps' s' := prime_not_dvd_prodPows p hp ps' s' hq'
      have hpos : 1 ≤ prodPows ps' s' :=
        prodPows_pos ps' s' (fun r hr => (hq r (List.mem_cons_of_mem _ hr)).pos)
      have hlast' : s'.getLast? ≠ some 0 := by
        cases s' with
        | nil =>
          intro hcontra
          simp at hcontra
        | cons b t => rwa [List.getLast?_cons_cons] at hlast
      have hge2 : 2 ≤ p ^ a * prodPows ps' s' := by
        cases s' with
        | nil =>
          rw [prodPows_nil, Nat.mul_one]
          have ha : a ≠ 0 := by
            intro h0
            rw [h0] at hlast
            exact hlast rfl
          have hp2 := hp.two_le
          calc 2 ≤ p := hp2
          _ = p ^ 1 := (pow_one p).symm
          _ ≤ p ^ a := Nat.pow_le_pow_right (by omega) (by omega)
        | cons b t =>
          have h2 := prodPows_ge_two (b :: t) ps'
            (by rwa [List.getLast?_cons_cons] at hlast) (by simp)
            (by simpa using hlen) (fun r hr => hq r (List.mem_cons_of_mem _ hr))
          have h1 : 0 < p ^ a := pow_pos hp.pos a
          calc 2 ≤ prodPows ps' (b :: t) := h2
          _ = 1 * prodPows ps' (b :: t) := (Nat.one_mul _).symm
          _ ≤ p ^ a * prodPows ps' (b :: t) := Nat.mul_le_mul_right _ h1
      rw [if_neg (show ¬ p ^ a * prodPows ps' s' = 1 from by omega)]
      have hfuel : a ≤ p ^ a * prodPows ps' s' := by
        have h1 : a < 2 ^ a := Nat.lt_two_pow a
        have h2 : 2 ^ a ≤ p ^ a := Nat.pow_le_pow_left hp.two_le a
        have h3 : p ^ a * 1 ≤ p ^ a * prodPows ps' s' := Nat.mul_le_mul_left _ hpos
        omega
      rw [divOut_spec p hp.two_le a _ _ hnd hpos hfuel]
      rw [show ((a : Nat), prodPows ps' s').2 = prodPows ps' s' from rfl]
      rw [show ((a : Nat), prodPows ps' s').1 = a from rfl]
      rw [intToSeqGo_correct s' ps' (fun r hr => hq r (List.mem_cons_of_mem _ hr))
        (List.pairwise_cons.mp hpw).2 (by simpa using hlen) hlast']

/-- C9, corrected (sequences that end in `0` excluded): for every sequence
of nonnegative integers that is empty or whose last entry is nonzero,
running enough sieve iterations makes
`int_to_seq(seq_to_int(s))` return exactly `s`.  Trailing zeros are not
recoverable (see the counterexample), so the codec is a bijection only on
such sequences. -/
theorem seq_codec_roundtrip_no_trailing_zero (s : List Nat)
    (h : s.getLast? ≠ some 0) :
    ∃ fuel, (seq_to_int fuel s).bind (int_to_seq fuel) = some s := by
  obtain ⟨N, hN⟩ := exists_fuel_yields s.length
  refine ⟨N, ?_⟩
  have henc : seq_to_int N s = some (prodPows (sieveYields N) s) := by
    rw [seq_to_int, if_pos hN]
    rfl
  rw [henc]
  show int_to_seq N (prodPows (sieveYields N) s) = some s
  rw [int_to_seq]
  exact intToSeqGo_correct s (sieveYields N) (sieveYields_primes N)
    (sieveYields_sorted N) hN h

/-- Witness for `seq_codec_roundtrip_no_trailing_zero` at `s = [2,0,1]`,
the concrete instance named by the specification. -/
theorem seq_codec_roundtrip_witness :
    ([2,0,1] : List Nat).getLast? ≠ some 0 ∧
    ∃ fuel, (seq_to_int fuel [2,0,1]).bind (int_to_seq fuel) = some [2,0,1] :=
  ⟨by decide, seq_codec_roundtrip_no_trailing_zero [2,0,1] (by decide)⟩

end TraversalGroup
